import Mathlib

/-!
Verification development for the `crep` interval-table library
(`crep/tools.py` and `crep/base.py`).

The embedding works on lists of segment rows.  A table is a `List (Row α)`
where `Row α` carries one discrete key column `k`, the two continuous
bound columns `s` (= `id_continuous[0]`, e.g. `t1`) and `e`
(= `id_continuous[1]`, e.g. `t2`), and one opaque payload column `p : α`.
A missing (NaN) cell of a payload column is `none` of an `Option` type.

pandas primitives are modelled by explicit list combinators:
`sortBy` is a stable comparison sort (`DataFrame.sort_values`; pandas'
default quicksort leaves the order of tied rows unspecified, the stable
order is one legal refinement), `dedupBy` is `drop_duplicates`
(keep='first'), `ffill`/`bfill` propagate the last/next non-missing value,
and `leftJoin`/`innerJoin` are `pd.merge(..., how='left'/'inner')`
(left-frame order preserved, one output row per matching pair,
missing-fill on the left join).
-/

set_option autoImplicit false

universe u v w

/-- One segment row: discrete key `k`, half-open interval `[s, e)`,
payload `p`.  Instantiations below use `α = Option Int` (`none` = NaN). -/
structure Row (α : Type u) where
  k : Int
  s : Int
  e : Int
  p : α
  deriving DecidableEq, Repr

/-- Stable insertion of `x` into a list sorted by the strict order `lt`:
`x` is placed before the first element not strictly below it, so elements
tied with `x` that were already in the list stay behind it. -/
def insertSorted {α : Type u} (lt : α → α → Bool) (x : α) : List α → List α
  | [] => [x]
  | y :: ys => if lt y x then y :: insertSorted lt x ys else x :: y :: ys

/-- Stable sort by the strict order `lt` (model of `sort_values`). -/
def sortBy {α : Type u} (lt : α → α → Bool) (l : List α) : List α :=
  l.foldr (insertSorted lt) []

/-- First-occurrence deduplication by the key `f`
(model of `drop_duplicates(subset=..., keep='first')`). -/
def dedupByAux {α : Type u} {β : Type v} [DecidableEq β] (f : α → β) :
    List α → List β → List α
  | [], _ => []
  | x :: xs, seen =>
    if f x ∈ seen then dedupByAux f xs seen
    else x :: dedupByAux f xs (f x :: seen)

/-- Model of `drop_duplicates` keeping the first occurrence of each key. -/
def dedupBy {α : Type u} {β : Type v} [DecidableEq β] (f : α → β) (l : List α) : List α :=
  dedupByAux f l []

/-- Forward fill helper: `last` is the most recent non-missing value. -/
def ffillAux {α : Type u} (last : Option α) : List (Option α) → List (Option α)
  | [] => []
  | x :: xs =>
    match x with
    | some v => some v :: ffillAux (some v) xs
    | none => last :: ffillAux last xs

/-- Model of `Series.ffill()`: propagate the last non-missing value. -/
def ffill {α : Type u} (l : List (Option α)) : List (Option α) :=
  ffillAux none l

/-- Model of `Series.bfill()`: propagate the next non-missing value. -/
def bfill {α : Type u} (l : List (Option α)) : List (Option α) :=
  (ffill l.reverse).reverse

/-- Model of `pd.merge(L, R, how='left')` on an arbitrary match predicate:
left order kept, one row per matching pair, `miss` when nothing matched. -/
def leftJoin {α : Type u} {β : Type v} {γ : Type w}
    (L : List α) (R : List β) (mtch : α → β → Bool)
    (comb : α → β → γ) (miss : α → γ) : List γ :=
  L.flatMap (fun a =>
    let ms := R.filter (mtch a)
    if ms.isEmpty then [miss a] else ms.map (comb a))

/-- Model of `pd.merge(L, R, how='inner')`. -/
def innerJoin {α : Type u} {β : Type v} {γ : Type w}
    (L : List α) (R : List β) (mtch : α → β → Bool)
    (comb : α → β → γ) : List γ :=
  L.flatMap (fun a => (R.filter (mtch a)).map (comb a))

/-- Running 0/1 count of `true` flags seen so far, inclusive
(model of `Series.cumsum()` on a boolean column). -/
def cumsum (l : List Bool) : List Int :=
  (l.foldl (fun (acc : List Int × Int) b =>
    let n := acc.2 + (if b then 1 else 0)
    (acc.1 ++ [n], n)) ([], 0)).1

/-- Strict lexicographic order on `(k, s, e)`,
the sort key `[*id_discrete, *id_continuous]`. -/
def rowLt {α : Type u} (a b : Row α) : Bool :=
  a.k < b.k ∨ (a.k = b.k ∧ (a.s < b.s ∨ (a.s = b.s ∧ a.e < b.e)))

/-- Strict lexicographic order on `(k, s)`,
the sort key `[*id_discrete, id_continuous[0]]`. -/
def rowLtKS {α : Type u} (a b : Row α) : Bool :=
  a.k < b.k ∨ (a.k = b.k ∧ a.s < b.s)

namespace Crep

/-! ## `tools.compute_discontinuity` (tools.py lines 154-176)

`discontinuity[i]` is true iff `i > 0` and (the discrete key changed from
row `i-1`, or `start[i] != end[i-1]`).  The first row is never flagged. -/

/-- Tail of the discontinuity flags: `prev` is row `i-1`. -/
def discontinuityAux {α : Type u} (prev : Row α) : List (Row α) → List Bool
  | [] => []
  | y :: ys => (decide (y.k ≠ prev.k) || decide (y.s ≠ prev.e)) :: discontinuityAux y ys

/-- Model of `tools.compute_discontinuity`. -/
def compute_discontinuity {α : Type u} : List (Row α) → List Bool
  | [] => []
  | x :: xs => false :: discontinuityAux x xs

/-! ## `tools.create_continuity` (tools.py lines 179-203)

For every flagged row `i` (indices `ix__`) a filler row is built with the
index columns of row `i`, `start := end[i-1]`, `end := start[i]` and NaN
payload; the fillers (optionally restricted by `limit`) are concatenated
AFTER the original rows, then every row with `start >= end` is dropped,
and the result is optionally sorted.  If no row is flagged the input is
returned unchanged. -/

/-- Filler rows of `create_continuity`, one per flagged row, in row order
(`df_add`, tools.py lines 193-196).  `nullp` is the NaN payload. -/
def continuityFillersAux {α : Type u} (nullp : α) (prev : Row α) :
    List (Row α) → List (Row α)
  | [] => []
  | y :: ys =>
    if y.k ≠ prev.k ∨ y.s ≠ prev.e then
      ⟨y.k, prev.e, y.s, nullp⟩ :: continuityFillersAux nullp y ys
    else continuityFillersAux nullp y ys

/-- All filler rows for a table (first row never flagged). -/
def continuityFillers {α : Type u} (nullp : α) : List (Row α) → List (Row α)
  | [] => []
  | x :: xs => continuityFillersAux nullp x xs

/-- True iff some row is flagged (`df_in["discontinuity"].sum() != 0`). -/
def hasDiscontinuity {α : Type u} (df : List (Row α)) : Bool :=
  (compute_discontinuity df).any id

/-- Model of `tools.create_continuity` with its `limit` and `sort`
keyword arguments (`limit=None`, `sort=False` are the defaults). -/
def create_continuity_full {α : Type u} (nullp : α) (limit : Option Int)
    (sort : Bool) (df : List (Row α)) : List (Row α) :=
  if hasDiscontinuity df then
    let add := continuityFillers nullp df
    let add := match limit with
      | some lim => add.filter (fun r => r.e - r.s < lim)
      | none => add
    let out := (df ++ add).filter (fun r => r.s < r.e)
    if sort then sortBy rowLt out else out
  else df

/-- Model of `tools.create_continuity` at its default arguments. -/
def create_continuity {α : Type u} (nullp : α) (df : List (Row α)) : List (Row α) :=
  create_continuity_full nullp none false df

/-! ## `tools.create_zones` (tools.py lines 56-126)

Rows are ranked twice: `__zf__` = position after a sort by `(k, e)` and
`__zi__` = position after a further sort by `(k, s)` (each sort is stable
from the previous order).  In `(k, s)` order, a row is a zone boundary iff
(`__zf__ == __zi__` and its `s` is `>=` the positional predecessor's `e`)
or its key differs from the predecessor's; the first row's predecessor
end is its own `e` and the first row is never a key change.  The zone id
is the running count of boundaries, and rows are returned in their
original order, paired with their zone id. -/

/-- Strict lexicographic order on `(k, e)`, the sort key
`[*id_discrete, id_continuous[1]]`. -/
def rowLtKE {α : Type u} (a b : Row α) : Bool :=
  a.k < b.k ∨ (a.k = b.k ∧ a.e < b.e)

/-- Ends of the positional predecessors in the current order; the first
row keeps its own end (`__id2_prev__`, tools.py lines 115-116). -/
def prevEndsAux {α : Type u} (prev : Row α) : List (Row α) → List Int
  | [] => []
  | y :: ys => prev.e :: prevEndsAux y ys

/-- Predecessor-end column of a frame in its current order. -/
def prevEnds {α : Type u} : List (Row α) → List Int
  | [] => []
  | x :: xs => x.e :: prevEndsAux x xs

/-- Key-change flags in the current order (`c_disc`, tools.py 119-121):
the first row is `false`, row `i` is flagged iff its key differs from row
`i-1`'s. -/
def keyChangeAux {α : Type u} (prev : Row α) : List (Row α) → List Bool
  | [] => []
  | y :: ys => decide (y.k ≠ prev.k) :: keyChangeAux y ys

/-- Key-change flag column of a frame in its current order. -/
def keyChanges {α : Type u} : List (Row α) → List Bool
  | [] => []
  | x :: xs => false :: keyChangeAux x xs

/-- Model of `tools.create_zones`: each row of the input, in input order,
paired with its integer `__zone__` id. -/
def create_zones {α : Type u} (df : List (Row α)) : List (Row α × Int) :=
  let tagged := df.enum
  let s1 := sortBy (fun a b => rowLtKE a.2 b.2) tagged
  let withZf := s1.enum.map (fun ie => (ie.2.1, ie.2.2, ie.1))
  let s2 := sortBy (fun a b => rowLtKS a.2.1 b.2.1) withZf
  let rows2 := s2.map (fun x => x.2.1)
  let czone := s2.enum.map (fun ix => decide (ix.2.2.2 = ix.1))
  let cinner := (rows2.zip (prevEnds rows2)).map (fun pr => decide (pr.1.s ≥ pr.2))
  let boundary := (List.zipWith and czone cinner).zipWith or (keyChanges rows2)
  let zones := cumsum boundary
  let s2z := (s2.zip zones).map (fun xz => (xz.1.1, xz.1.2.1, xz.2))
  (sortBy (fun a b => decide (a.1 < b.1)) s2z).map (fun x => (x.2.1, x.2.2))

/-- Model of `tools.get_overlapping`: per row, in input order, whether its
zone id is shared with at least one other row
(`Series.duplicated(keep=False)`). -/
def get_overlapping {α : Type u} (df : List (Row α)) : List Bool :=
  let zs := create_zones df
  zs.map (fun rz => decide (2 ≤ (zs.map (fun x => x.2)).count rz.2))

/-- Model of `tools.admissible_dataframe`: no row is marked overlapping. -/
def admissible_dataframe {α : Type u} (df : List (Row α)) : Bool :=
  (get_overlapping df).all (fun b => !b)

/-- Model of `tools.sample_non_admissible_data`: the overlapping rows in
input order. -/
def sample_non_admissible_data {α : Type u} (df : List (Row α)) : List (Row α) :=
  ((df.zip (get_overlapping df)).filter (fun x => x.2)).map (fun x => x.1)

/-! ## `tools.build_admissible_data` (tools.py lines 12-53)

The overlapping rows are re-zoned; all their `s` and `e` values become
boundary points tagged with the source row's key and zone; the points are
sorted by `(key, point)` and each consecutive pair forms one candidate
fine segment (the last point is dropped by `dropna`, full-row duplicates
by `drop_duplicates`, zero-width pairs by the `!=` filter); each fine
segment is inner-joined back to the overlapping rows of the same key and
zone and kept once per source row that strictly covers it
(`seg.s < orig.e` and `seg.e > orig.s`), carrying that row's payload.
Non-overlapping input rows pass through; the concatenation is sorted by
`(key, s)`.  The dead `__disc__` column (computed then dropped unused at
tools.py lines 29/32) is omitted. -/

/-- Boundary point of one overlapping row: `(key, zone, point, __id__)`.
`__id__` is the position of the source row among the overlapping rows
(tools.py line 21). -/
structure BPoint where
  k : Int
  z : Int
  pt : Int
  deriving DecidableEq, Repr

/-- Candidate fine segment `(key, zone, s, e)` built from two consecutive
sorted boundary points (tools.py line 31: `e` is the next row's point). -/
structure FSeg where
  k : Int
  z : Int
  a : Int
  b : Int
  deriving DecidableEq, Repr

/-- Consecutive pairing of the sorted boundary points; the final point,
whose diff is NaN, is dropped (tools.py lines 31-32). -/
def pairPoints : List BPoint → List FSeg
  | [] => []
  | [_] => []
  | x :: y :: rest => ⟨x.k, x.z, x.pt, y.pt⟩ :: pairPoints (y :: rest)

/-- Model of `tools.build_admissible_data`. -/
def build_admissible_data {α : Type u} [DecidableEq α] (df : List (Row α)) : List (Row α) :=
  let dfna := sample_non_admissible_data df
  let zna := create_zones dfna
  let znaId := zna.enum.map (fun ie => (ie.2.1, ie.2.2, ie.1))
  let pts := zna.map (fun rz => BPoint.mk rz.1.k rz.2 rz.1.s)
      ++ zna.map (fun rz => BPoint.mk rz.1.k rz.2 rz.1.e)
  let spts := sortBy (fun a b => decide (a.k < b.k ∨ (a.k = b.k ∧ a.pt < b.pt))) pts
  let segs := pairPoints spts
  let segs := dedupBy id segs
  let segs := segs.filter (fun sg => sg.b ≠ sg.a)
  let joined := innerJoin segs znaId
      (fun sg o => sg.k = o.1.k ∧ sg.z = o.2.1) (fun sg o => (sg, o))
  let covered := joined.filter (fun so => so.1.a < so.2.1.e ∧ so.1.b > so.2.1.s)
  let fine := innerJoin covered znaId (fun so o => so.2.2.2 = o.2.2)
      (fun so o => Row.mk so.1.k so.1.a so.1.b o.1.p)
  let passthrough :=
    ((df.zip (get_overlapping df)).filter (fun x => !x.2)).map (fun x => x.1)
  sortBy rowLtKS (passthrough ++ fine)

/-! ## The interval merge engine (base.py lines 13-91, 256-282, 379-573)

The kernel `__merge` works on the distinct `(k, s, e)` combinations of
each side.  In the embedding a surrogate-index frame is a
`List (Row Int)` whose payload is the surrogate index: the positional
index of the source row, or `-1` for a continuity filler (the sentinel
assigned at base.py lines 396-397).  Missing joins stay `Option`-valued
(`none` = NaN) until the final `fillna(-1)`.

Payload columns are opaque: each side's payload is a single value of an
arbitrary type, attached at the end by positional lookup exactly as
`pd.merge(..., left_on="left_idx", right_index=True, how="left")` does
(base.py lines 66-73).  `dropna` calls on pure key/bound frames are
no-ops here because those columns are integers. -/

/-- Model of `_increasing_continuous_index` (base.py 510-518): per row,
`s` becomes the min and `e` the max of the two bounds. -/
def increasing_continuous_index {α : Type u} (df : List (Row α)) : List (Row α) :=
  df.map (fun r => { r with s := min r.s r.e, e := max r.s r.e })

/-- One side of `__refactor_data` (base.py 521-540): normalize the bounds,
keep the distinct `(k, s, e)` combinations tagged with the positional
index of their first occurrence as surrogate index, and sort by
`(k, s, e)`.  The opposite side's surrogate column, all-NaN until the
sentinel assignment, is not materialized because `__merge` never reads
it from this frame. -/
def refactor_side {α : Type u} (df : List (Row α)) : List (Row (Option Int)) :=
  let norm := increasing_continuous_index df
  let tagged := norm.enum.map (fun ir => Row.mk ir.2.k ir.2.s ir.2.e (some (Int.ofNat ir.1)))
  sortBy rowLt (dedupBy (fun r => (r.k, r.s, r.e)) tagged)

/-- One stretched side of `__merge` (base.py 389-397): the refactored
frame made gapless by `create_continuity`, with the NaN surrogate index
of the filler rows replaced by the sentinel `-1`. -/
def stretch_side {α : Type u} (df : List (Row α)) : List (Row Int) :=
  (Crep.create_continuity none (refactor_side df)).map
    (fun r => Row.mk r.k r.s r.e (r.p.getD (-1)))

/-- One row of the jump table (base.py 556-573): discrete key `k`, the
breakpoint `___t`, and the segment bounds `t1`/`t2` (`-1` on the final
row, which the `id1`/`id2` shift assignments skip). -/
structure JRow where
  k : Int
  t : Int
  t1 : Int
  t2 : Int
  deriving DecidableEq, Repr

/-- Shifted pairing of the sorted distinct breakpoints (base.py 568-572):
every row's `t1` is its own breakpoint and its `t2` the next row's
breakpoint, regardless of key; the last row keeps the `-1` initializers. -/
def jumpRows : List (Int × Int) → List JRow
  | [] => []
  | [x] => [⟨x.1, x.2, -1, -1⟩]
  | x :: y :: rest => ⟨x.1, x.2, x.2, y.2⟩ :: jumpRows (y :: rest)

/-- Model of `__table_jumps` (base.py 556-573): the distinct `(k, e)` and
`(k, s)` pairs of the concatenated stretched frame, concatenated
(ends first), sorted by `(k, ___t)`, deduplicated, and paired up. -/
def table_jumps (data : List (Row Int)) : List JRow :=
  let uE := dedupBy id (data.map (fun r => (r.k, r.e)))
  let uS := dedupBy id (data.map (fun r => (r.k, r.s)))
  let pts := dedupBy id
    (sortBy (fun a b => decide (a.1 < b.1 ∨ (a.1 = b.1 ∧ a.2 < b.2))) (uE ++ uS))
  jumpRows pts

/-- Working row of the `__merge` join pipeline: a jump row plus the four
surrogate columns `left_idx`, `right_idx`, `left_idx_end`,
`right_idx_end`, each `none` while NaN. -/
structure MJoin where
  j : JRow
  li : Option Int
  ri : Option Int
  lie : Option Int
  rie : Option Int
  deriving DecidableEq, Repr

/-- Final row of `__merge`: segment bounds and both surrogate indices
after `fillna(-1)` (base.py 453-455). -/
structure KOut where
  k : Int
  t1 : Int
  t2 : Int
  li : Int
  ri : Int
  deriving DecidableEq, Repr

/-- The four surrogate left joins of `__merge` (base.py 403-432): for
each jump row, `left_idx`/`right_idx` from the stretched row whose start
equals the jump row's `t1`, and `left_idx_end`/`right_idx_end` from the
stretched row whose end equals it. -/
def mergeJoins (s1 s2 : List (Row Int)) (m0 : List MJoin) : List MJoin :=
  let m1 : List MJoin := leftJoin m0 s1 (fun m r => m.j.t1 = r.s ∧ m.j.k = r.k)
      (fun m r => { m with li := some r.p }) (fun m => m)
  let m2 : List MJoin := leftJoin m1 s2 (fun m r => m.j.t1 = r.s ∧ m.j.k = r.k)
      (fun m r => { m with ri := some r.p }) (fun m => m)
  let m3 : List MJoin := leftJoin m2 s1 (fun m r => m.j.t1 = r.e ∧ m.j.k = r.k)
      (fun m r => { m with lie := some r.p }) (fun m => m)
  leftJoin m3 s2 (fun m r => m.j.t1 = r.e ∧ m.j.k = r.k)
      (fun m r => { m with rie := some r.p }) (fun m => m)

/-- The end-pad sentinel fix (base.py 434-443): a NaN surrogate becomes
`-1` when that side's end join hit a real (non-filler, non-NaN) row. -/
def padFix (m : MJoin) : MJoin :=
  let li := if m.lie.getD (-1) ≥ 0 ∧ m.li = none then some (-1) else m.li
  let ri := if m.rie.getD (-1) ≥ 0 ∧ m.ri = none then some (-1) else m.ri
  { m with li := li, ri := ri }

/-- The discontinuity sentinel fix (base.py 445-449): on rows flagged
discontinuous, NaN surrogates become `-1`. -/
def discFix (md : MJoin × Bool) : MJoin :=
  let li := if md.2 ∧ md.1.li = none then some (-1) else md.1.li
  let ri := if md.2 ∧ md.1.ri = none then some (-1) else md.1.ri
  { md.1 with li := li, ri := ri }

/-- Model of `__merge` (base.py 379-459) on two stretched frames:
the four left joins on start/end breakpoints, the end-pad sentinel fix,
the discontinuity sentinel fix, the global forward fill, `fillna(-1)`,
and the drop of rows with sentinel on both sides. -/
def merge_kernel (s1 s2 : List (Row Int)) : List KOut :=
  let data := sortBy rowLt (s1 ++ s2)
  let m0 := (table_jumps data).map (fun j => MJoin.mk j none none none none)
  let m4 := mergeJoins s1 s2 m0
  let m5 := m4.map padFix
  let disc := Crep.compute_discontinuity (m5.map (fun m => Row.mk m.j.k m.j.t1 m.j.t2 ()))
  let m6 := (m5.zip disc).map discFix
  let lis := ffill (m6.map (fun m => m.li))
  let ris := ffill (m6.map (fun m => m.ri))
  let m7 := (m6.zip (lis.zip ris)).map (fun x =>
    KOut.mk x.1.j.k x.1.j.t1 x.1.j.t2 (x.2.1.getD (-1)) (x.2.2.getD (-1)))
  m7.filter (fun r => ¬(r.li + r.ri = -2))

/-- Model of `__fix_discrete_index` (base.py 469-487) with one discrete
key column on both sides (equal column counts, so no swap): the right
frame is restricted to the keys present on both sides and regrouped in
the left frame's key order. -/
def fix_discrete_index {α : Type u} {β : Type v}
    (L : List (Row α)) (R : List (Row β)) : List (Row β) :=
  let lk := dedupBy id (L.map (fun r => r.k))
  let rk := dedupBy id (R.map (fun r => r.k))
  let inter := lk.filter (fun x => x ∈ rk)
  inter.flatMap (fun kk => R.filter (fun r => r.k = kk))

/-- Positional payload lookup for the final joins of `merge`
(base.py 66-73): the sentinel `-1` matches no index label. -/
def payloadAt {α : Type u} (L : List (Row α)) (i : Int) : Option α :=
  if i < 0 then none else (L.get? i.toNat).map (fun r => r.p)

/-- The `how` argument of `merge`; `__check_args_merge` admits exactly
these four values. -/
inductive How
  | left | right | inner | outer
  deriving DecidableEq, Repr

/-- Output row of `merge`: key, bounds, and the two opaque payloads,
each missing when the corresponding side had no covering row. -/
structure MOut (α : Type u) (β : Type v) where
  k : Int
  t1 : Int
  t2 : Int
  pl : Option α
  pr : Option β
  deriving DecidableEq, Repr

/-- The sentinel filter applied by `how` (base.py 75-80). -/
def howKeep (how : How) (r : KOut) : Bool :=
  match how with
  | .left => r.li ≠ -1
  | .right => r.ri ≠ -1
  | .inner => r.ri ≠ -1 ∧ r.li ≠ -1
  | .outer => true

/-- Model of `crep.base.merge` (base.py 13-91) at
`remove_duplicates=False`: align the discrete keys, run the kernel,
attach both payloads by surrogate index, filter by `how`, and drop the
surrogate columns. -/
def merge {α : Type u} {β : Type v} (L : List (Row α)) (R : List (Row β))
    (how : How) : List (MOut α β) :=
  let R2 := fix_discrete_index L R
  let kern := merge_kernel (stretch_side L) (stretch_side R2)
  let aug := kern.map (fun r => (r, payloadAt L r.li, payloadAt R2 r.ri))
  (aug.filter (fun x => howKeep how x.1)).map
    (fun x => MOut.mk x.1.k x.1.t1 x.1.t2 x.2.1 x.2.2)

/-! ## `aggregate_constant` (base.py 189-253)

The frame is sorted by `(k, s, e)`; row `i` is flagged `identical` when
all payload cells equal row `i+1`'s under `np.equal` (so a NaN cell is
never equal to anything, itself included) and row `i+1` is not flagged
discontinuous.  If no row is flagged the original frame is returned
untouched.  Otherwise each row's new `e` is back-filled from the rows
that are not `identical` (run ends) and its new `s` forward-filled from
the run starts (`b_disc`), and exact duplicate rows are dropped
(keep first).  The dead `keep` column (base.py 232-238) is omitted, and
the final `astype`/column reselection are no-ops for this schema. -/

/-- Elementwise `np.equal` on an optional payload cell: NaN compares
false against everything, including NaN (base.py 218-224). -/
def np_equal (a b : Option Int) : Bool :=
  match a, b with
  | some x, some y => decide (x = y)
  | _, _ => false

/-- The `identical` flags (base.py 213-227) of a frame in its current
order, for a generic payload equality `peq` (elementwise `np.equal`
over the payload columns): row `i` is flagged iff `i < n-1`, its payload
equals row `i+1`'s, and row `i+1` is not discontinuous.  The last row is
never flagged. -/
def identicalFlags {α : Type u} (peq : α → α → Bool) (l : List (Row α)) : List Bool :=
  match l with
  | [] => []
  | _ :: _ =>
    let eqNext := List.zipWith (fun a b => peq a.p b.p) l l.tail
    let nd := ((Crep.compute_discontinuity l).tail).map (fun b => !b)
    (List.zipWith and eqNext nd) ++ [false]

/-- The `b_disc` run-start flags (base.py 243): the first row, then the
negation of the previous row's `identical` flag. -/
def aggStartFlags (ident : List Bool) : List Bool :=
  match ident with
  | [] => []
  | _ :: _ => true :: (ident.dropLast.map (fun b => !b))

/-- The `b` run-end flags (base.py 242): the negated `identical` flags. -/
def aggEndFlags (ident : List Bool) : List Bool :=
  ident.map (fun b => !b)

/-- The re-bounded rows of `aggregate_constant` (base.py 240-253): new
ends are set on run ends and back-filled, new starts on run starts and
forward-filled; keys and payloads are untouched.  The scans never leave
a missing value because the first start flag and the last end flag are
always set. -/
def aggNewRows {α : Type u} (sorted : List (Row α)) (ident : List Bool) : List (Row α) :=
  let newS := ffill (List.zipWith
    (fun (r : Row α) f => if f then some r.s else none) sorted (aggStartFlags ident))
  let newE := bfill (List.zipWith
    (fun (r : Row α) f => if f then some r.e else none) sorted (aggEndFlags ident))
  (sorted.zip (newS.zip newE)).map
    (fun x => Row.mk x.1.k (x.2.1.getD 0) (x.2.2.getD 0) x.1.p)

/-- Model of `crep.base.aggregate_constant`. -/
def aggregate_constant {α : Type u} [DecidableEq α] (peq : α → α → Bool)
    (df : List (Row α)) : List (Row α) :=
  let sorted := sortBy rowLt df
  let ident := identicalFlags peq sorted
  if ident.any id then dedupBy id (aggNewRows sorted ident)
  else df

/-! ## Event classification and the unsupported-configuration failure
(base.py 256-282 and 462-466)

`is_event` holds when the frame misses at least one of the two declared
interval columns.  `__merge_index` raises the not-implemented
`AssertionError` when both sides are events; when only the left is, it
recurses with the sides swapped and then lands in the right-event
branch, which selects the event side's `"pk"` column (a `KeyError` when
absent) and then raises the same `AssertionError`.  Only when neither
side is an event does the kernel run.  `__check_args_merge`
(base.py 543-553) runs first and raises `ValueError` when a requested
column is missing from both frames.  The table model here is its list
of column names. -/

/-- Model of `crep.base.is_event` (base.py 462-466). -/
def is_event (cols : List String) (c1 c2 : String) : Bool :=
  !(cols.contains c1 && cols.contains c2)

/-- How a `merge` call terminates in the embedding. -/
inductive MergeOutcome
  | ok
  | valueError
  | unsupported
  | keyError
  deriving DecidableEq, Repr

/-- The `elif cr` branch of `__merge_index` (base.py 270-276): the event
frame's `"pk"` column is selected — a `KeyError` when absent — and then
the not-implemented `AssertionError` is raised. -/
def merge_index_event_branch (colsEvent : List String) : MergeOutcome :=
  if colsEvent.contains "pk" then .unsupported else .keyError

/-- Model of the `__merge_index` branch structure (base.py 256-282).
The `elif cl` branch recurses once with the frames swapped
(base.py 268-269); in the recursive call the both-event test is false
and the new right frame — the original left, the event side — lands in
the `elif cr` branch, so the recursion is inlined here as
`merge_index_event_branch colsL`. -/
def merge_index_outcome (colsL colsR : List String) (c1 c2 : String) : MergeOutcome :=
  if is_event colsL c1 c2 ∧ is_event colsR c1 c2 then .unsupported
  else if is_event colsL c1 c2 then merge_index_event_branch colsL
  else if is_event colsR c1 c2 then merge_index_event_branch colsR
  else .ok

/-- Model of `__check_args_merge` (base.py 543-553) for one discrete
column: every requested column must live in at least one frame. -/
def check_args_ok (colsL colsR : List String) (c1 c2 kc : String) : Bool :=
  (colsL.contains c1 || colsR.contains c1) &&
  (colsL.contains c2 || colsR.contains c2) &&
  (colsL.contains kc || colsR.contains kc)

/-- Model of the failure behaviour of `crep.base.merge` (base.py 47-65):
argument validation first, then the event dispatch of `__merge_index`.
The model assumes the discrete key column is present in both frames;
when it is missing from one side the real code fails earlier, inside
`__fix_discrete_index` or the `data.loc[:, id_]` selections, before the
event dispatch is reached. -/
def merge_outcome (colsL colsR : List String) (c1 c2 kc : String) : MergeOutcome :=
  if check_args_ok colsL colsR c1 c2 kc then merge_index_outcome colsL colsR c1 c2
  else .valueError

/-! ## `unbalanced_merge` (base.py 94-186)

`data_admissible` rows are tagged `__t__ = True`, `data_not_admissible`
rows `False`; the union is sorted by `(k, s, __t__ desc)` and the bounds
of the latest admissible row are forward-filled (`__id1__`, `__id2__`).
With `c_resolve = (__id2__ < e)` and `c_out = (__id2__ < s)` (both false
on NaN) the rows split into the encompassed branch (`~c_resolve`, kept
only for `__t__ = False` rows, inner-joined to the admissible frame on
the filled window and left-joined to the override payload), the resolve
branch (re-admissibilized, inner-merged against the admissible frame,
then inner-joined back to the override on the saved old bounds), and the
out branch (inner-joined to the override on the exact bounds, with no
admissible payload).  The three parts are concatenated in the order
`(resolve, encompassed, out)` and sorted by `(k, s, e)`. -/

/-- One row of `df_idx` (base.py 124-138) after the forward fill:
bounds, origin tag `__t__`, and the filled admissible window. -/
structure URow where
  k : Int
  s : Int
  e : Int
  t : Bool
  i1 : Option Int
  i2 : Option Int
  deriving DecidableEq, Repr

/-- Sort order of `df_idx` (base.py 130-131): `(k, s)` ascending, then
`__t__` descending, so ties put the admissible row first. -/
def uLt (a b : URow) : Bool :=
  a.k < b.k ∨ (a.k = b.k ∧ (a.s < b.s ∨ (a.s = b.s ∧ a.t = true ∧ b.t = false)))

/-- The sorted, forward-filled `df_idx` frame (base.py 124-138). -/
def unbalancedIdx {α : Type u} {β : Type v}
    (base : List (Row α)) (override : List (Row β)) : List URow :=
  let raw := base.map (fun r => URow.mk r.k r.s r.e true none none)
      ++ override.map (fun r => URow.mk r.k r.s r.e false none none)
  let srt := sortBy uLt raw
  let i1s := ffill (srt.map (fun u => if u.t then some u.s else none))
  let i2s := ffill (srt.map (fun u => if u.t then some u.e else none))
  (srt.zip (i1s.zip i2s)).map (fun x => { x.1 with i1 := x.2.1, i2 := x.2.2 })

/-- Condition `c_resolve` (base.py 140): the filled admissible window ends before
this row does; false when the window is NaN. -/
def cResolve (u : URow) : Bool :=
  match u.i2 with
  | some v => decide (v < u.e)
  | none => false

/-- Condition `c_out` (base.py 141): the filled admissible window ends before this
row starts; false when the window is NaN. -/
def cOut (u : URow) : Bool :=
  match u.i2 with
  | some v => decide (v < u.s)
  | none => false

/-- Model of `crep.base.unbalanced_merge`.  The output reuses `MOut`:
`pl` is the admissible-side payload, `pr` the override-side payload. -/
def unbalanced_merge {α : Type u} {β : Type v} [DecidableEq α] [DecidableEq β]
    (base : List (Row α)) (override : List (Row β)) : List (MOut α β) :=
  let dfIdx := unbalancedIdx base override
  let encompassed := (dfIdx.filter (fun u => !cResolve u)).flatMap (fun u =>
    ((base.filter (fun b => u.k = b.k ∧ u.i1 = some b.s ∧ u.i2 = some b.e)).map
      (fun b => (u, b))))
  let encompassed := encompassed.filter (fun ub => !ub.1.t)
  let encompassedRet := leftJoin encompassed override
    (fun ub o => ub.1.k = o.k ∧ ub.1.s = o.s ∧ ub.1.e = o.e)
    (fun ub o => MOut.mk ub.1.k ub.1.s ub.1.e (some ub.2.p) (some o.p))
    (fun ub => MOut.mk ub.1.k ub.1.s ub.1.e (some ub.2.p) none)
  let toResolve := (dfIdx.filter (fun u => cResolve u ∧ !cOut u)).map
    (fun u => Row.mk u.k u.s u.e (u.s, u.e))
  let adm := build_admissible_data toResolve
  let noD := dedupBy (fun (r : Row (Int × Int)) => (r.k, r.s, r.e)) adm
  let resolveRet :=
    if noD.isEmpty then []
    else
      let m := merge noD base .inner
      innerJoin m override
        (fun x o => x.k = o.k ∧ x.pl = some (o.s, o.e))
        (fun x o => MOut.mk x.k x.t1 x.t2 x.pr (some o.p))
  let toOut := dfIdx.filter (fun u => cResolve u ∧ cOut u)
  let outRet := innerJoin toOut override
    (fun u o => u.k = o.k ∧ u.s = o.s ∧ u.e = o.e)
    (fun u o => MOut.mk u.k u.s u.e none (some o.p))
  sortBy (fun (a b : MOut α β) =>
      a.k < b.k ∨ (a.k = b.k ∧ (a.t1 < b.t1 ∨ (a.t1 = b.t1 ∧ a.t2 < b.t2))))
    (resolveRet ++ encompassedRet ++ outRet)

/-! ## Argument mutation footprint (claim C9)

A pandas frame is observably a row index plus rows; each public
operation's effect on its arguments is modelled as a function from
argument state to argument state.  `merge` deep-copies both inputs
before any write (base.py 50-51), `merge_event` likewise (base.py
316-317), `aggregate_constant` works on `df.copy(deep=True)`
(base.py 205), `create_continuity` on `df.__deepcopy__()`
(tools.py 185), `unbalanced_merge` only builds `.copy()`s and fresh
merge results from its arguments (base.py 124-125), and
`create_regular_segment_segmentation` only reads `data` (base.py
335-376, the inner `merge` call copies again).  `build_admissible_data`
however assigns `df.index = range(len(df.index))` on its argument
(tools.py line 17), renumbering the caller's index in place. -/

/-- Observable state of a pandas frame: its index labels and rows. -/
structure PandasDf (α : Type u) where
  idx : List Int
  rows : List (Row α)
  deriving DecidableEq, Repr

/-- State of `merge`'s two arguments after the call (base.py 50-51). -/
def merge_arg_states {α : Type u} {β : Type v} (l : PandasDf α) (r : PandasDf β) :
    PandasDf α × PandasDf β := (l, r)

/-- State of `unbalanced_merge`'s arguments after the call
(base.py 124-125, 147-183: reads and copies only). -/
def unbalanced_merge_arg_states {α : Type u} {β : Type v}
    (l : PandasDf α) (r : PandasDf β) : PandasDf α × PandasDf β := (l, r)

/-- State of `aggregate_constant`'s argument after the call
(base.py 205). -/
def aggregate_constant_arg_state {α : Type u} (d : PandasDf α) : PandasDf α := d

/-- State of `merge_event`'s arguments after the call (base.py 316-317). -/
def merge_event_arg_states {α : Type u} {β : Type v}
    (l : PandasDf α) (r : PandasDf β) : PandasDf α × PandasDf β := (l, r)

/-- State of `create_regular_segment_segmentation`'s table argument
after the call (base.py 335-376). -/
def create_regular_segment_segmentation_arg_state {α : Type u}
    (d : PandasDf α) : PandasDf α := d

/-- State of `create_continuity`'s argument after the call
(tools.py 185). -/
def create_continuity_arg_state {α : Type u} (d : PandasDf α) : PandasDf α := d

/-- State of `build_admissible_data`'s argument after the call: the row
index is renumbered in place to `0..n-1` (tools.py line 17). -/
def build_admissible_data_arg_state {α : Type u} (d : PandasDf α) : PandasDf α :=
  ⟨(List.range d.rows.length).map Int.ofNat, d.rows⟩

/-! ## Specification-side predicates

These express the properties of the claims; they are not translations of
library code. -/

/-- Every row is a valid segment: `start < end` (the data-model
invariant of the specification). -/
def validRows {α : Type u} (df : List (Row α)) : Prop :=
  ∀ r ∈ df, r.s < r.e

/-- The specification's admissibility: no two rows of the same track
have overlapping intervals (pairwise over row occurrences). -/
def nonOverlapping {α : Type u} (df : List (Row α)) : Prop :=
  df.Pairwise (fun r r' => r.k = r'.k → r.e ≤ r'.s ∨ r'.e ≤ r.s)

/-- Point coverage: some row of `df` on track `kk` covers the point `x`
and carries payload `pv`. -/
def coversPt {α : Type u} (df : List (Row α)) (kk x : Int) (pv : α) : Prop :=
  ∃ r ∈ df, r.k = kk ∧ r.s ≤ x ∧ x < r.e ∧ r.p = pv

instance {α : Type u} (df : List (Row α)) : Decidable (validRows df) :=
  inferInstanceAs (Decidable (∀ r ∈ df, r.s < r.e))

instance {α : Type u} (df : List (Row α)) : Decidable (nonOverlapping df) :=
  inferInstanceAs (Decidable
    (df.Pairwise (fun (r r' : Row α) => r.k = r'.k → r.e ≤ r'.s ∨ r'.e ≤ r.s)))

/-- Specification-side check for the run-collapse claim: two adjacent
rows of the same track with identical payload and contiguous bounds. -/
def hasAdjacentIdentical {α : Type u} [DecidableEq α] (l : List (Row α)) : Bool :=
  (List.zipWith (fun a b =>
    decide (a.k = b.k) && decide (a.e = b.s) && decide (a.p = b.p)) l l.tail).any id

instance {α : Type u} [DecidableEq α] (df : List (Row α)) (kk x : Int) (pv : α) :
    Decidable (coversPt df kk x pv) :=
  inferInstanceAs (Decidable (∃ r ∈ df, r.k = kk ∧ r.s ≤ x ∧ x < r.e ∧ r.p = pv))

/-- Two rows are collapsible neighbours for `aggregate_constant`: same
track, contiguous bounds, and payloads equal under `peq`. -/
def linkRow {α : Type u} (peq : α → α → Bool) (a b : Row α) : Bool :=
  decide (a.k = b.k) && decide (a.e = b.s) && peq a.p b.p

/-- Maximal-run decomposition helper: the rest of the run started by
`x` together with the later runs, splitting where `link` fails. -/
def chunkAux {α : Type u} (link : α → α → Bool) (x : α) :
    List α → List α × List (α × List α)
  | [] => ([], [])
  | y :: ys =>
    let r := chunkAux link y ys
    if link x y then (y :: r.1, r.2) else ([], (y, r.1) :: r.2)

/-- Maximal runs of consecutive `link`-related elements, each as a
(head, tail) pair, so every run is non-empty by construction. -/
def chunks {α : Type u} (link : α → α → Bool) : List α → List (α × List α)
  | [] => []
  | x :: xs =>
    let r := chunkAux link x xs
    (x, r.1) :: r.2

/-- The collapsed row of one run: the head's key, start, and payload,
with the last member's end. -/
def collapseChunk {α : Type u} (c : Row α × List (Row α)) : Row α :=
  ⟨c.1.k, c.1.s, (c.2.getLastD c.1).e, c.1.p⟩

/-- The member list of one run. -/
def chunkJoin {α : Type u} (c : α × List α) : List α := c.1 :: c.2

/-! ## Concrete example tables

Payload values are opaque integers; in the examples of the
specification the payloads `0.2`, `0.1`, `0.3` are floats, which the
merge pipeline never computes with, so they are represented by the
scaled integers `2`, `1`, `3`. -/

/-- The specification example's left table (`data1` scaled by 10). -/
def exL8 : List (Row Int) :=
  [⟨1, 0, 5, 2⟩, ⟨1, 5, 80, 2⟩, ⟨1, 80, 100, 2⟩,
   ⟨2, 0, 90, 1⟩, ⟨2, 100, 120, 3⟩, ⟨2, 120, 130, 2⟩]

/-- The specification example's right table (`data2` scaled by 10). -/
def exR8 : List (Row Int) :=
  [⟨1, 5, 80, 2⟩, ⟨2, 0, 90, 1⟩, ⟨2, 100, 130, 3⟩]

/-- A one-track table with two overlapping rows. -/
def exC1 : List (Row (Option Int)) := [⟨0, 0, 10, some 1⟩, ⟨0, 5, 15, some 2⟩]

/-- A one-row admissible base table. -/
def exC3base : List (Row (Option Int)) := [⟨1, 0, 10, some 5⟩]

/-- A sorted valid one-track table with one gap. -/
def exC4 : List (Row (Option Int)) := [⟨1, 0, 5, some 1⟩, ⟨1, 7, 9, some 2⟩]

/-- A table whose continuity result is discontinuity-free although the
input is flagged: the filler and the zero-width row are both dropped. -/
def exC4w : List (Row (Option Int)) := [⟨1, 0, 7, some 1⟩, ⟨1, 5, 5, some 2⟩]

/-- Two valid tracks whose only discontinuity flag is the track start. -/
def exC5 : List (Row (Option Int)) := [⟨1, 0, 5, some 10⟩, ⟨2, 10, 20, some 20⟩]

/-- An admissible, sorted, valid table with null payloads on contiguous
rows. -/
def exC6null : List (Row (Option Int)) := [⟨1, 0, 5, none⟩, ⟨1, 5, 9, none⟩]

/-- A table with a reversed (invalid) segment that collapses with its
contiguous equal-payload neighbour. -/
def exC6rev : List (Row (Option Int)) := [⟨1, 2, 5, some 1⟩, ⟨1, 5, 1, some 1⟩]

/-- A valid but non-admissible, unsorted table: the nested third row
separates the two contiguous equal-payload rows in sort order. -/
def exC6over : List (Row (Option Int)) :=
  [⟨1, 0, 5, some 2⟩, ⟨1, 5, 9, some 2⟩, ⟨1, 3, 4, some 7⟩]

/-- An admissible valid table with one collapsible run of length two. -/
def exC6w : List (Row (Option Int)) :=
  [⟨1, 0, 5, some 2⟩, ⟨1, 5, 9, some 2⟩, ⟨1, 9, 12, some 3⟩]

/-- A one-row frame with a non-default index label. -/
def exC9 : PandasDf (Option Int) := ⟨[7], [⟨1, 0, 5, some 3⟩]⟩

/-- A flagged table containing a zero-width row. -/
def exC10 : List (Row (Option Int)) := [⟨1, 0, 5, some 1⟩, ⟨1, 9, 9, some 2⟩]

/-- A table with no discontinuity at all. -/
def exNoDisc : List (Row (Option Int)) := [⟨1, 0, 5, some 1⟩, ⟨1, 5, 9, some 2⟩]

end Crep

namespace Crep

/-! ## Shared helper lemmas -/

/-- Rows surviving the `how` filter of one join kind survive a laxer
kind: `merge` computes one augmented frame and only the final sentinel
filter depends on `how`. -/
theorem merge_mono {α : Type u} {β : Type v} (L : List (Row α)) (R : List (Row β))
    (h1 h2 : How) (himp : ∀ x, howKeep h1 x = true → howKeep h2 x = true) :
    ∀ r ∈ merge L R h1, r ∈ merge L R h2 := by
  intro r hr
  unfold merge at hr ⊢
  simp only [List.mem_map, List.mem_filter] at hr ⊢
  obtain ⟨x, ⟨hx, hk⟩, rfl⟩ := hr
  exact ⟨x, ⟨hx, himp _ hk⟩, rfl⟩

/-- The function `create_continuity` is the identity as soon as the discontinuity
flags are all false (the identity shortcut, tools.py 189-190). -/
theorem create_continuity_of_no_disc {α : Type u} (nullp : α)
    (df : List (Row α)) (h : hasDiscontinuity df = false) :
    create_continuity nullp df = df := by
  simp [create_continuity, create_continuity_full, h]

/-- The fillers of `create_continuity`, restricted to positive width,
as a `filterMap` over consecutive input pairs. -/
theorem fillersAux_filter_eq_zip (prev : Row (Option Int)) (l : List (Row (Option Int))) :
    (continuityFillersAux (none : Option Int) prev l).filter (fun r => decide (r.s < r.e)) =
      ((prev :: l).zip l).filterMap (fun pc =>
        if (pc.2.k ≠ pc.1.k ∨ pc.2.s ≠ pc.1.e) ∧ pc.1.e < pc.2.s
        then some ⟨pc.2.k, pc.1.e, pc.2.s, none⟩ else none) := by
  induction l generalizing prev with
  | nil => rfl
  | cons y ys ih =>
    by_cases hf : y.k ≠ prev.k ∨ y.s ≠ prev.e
    · by_cases hv : prev.e < y.s
      · simp [continuityFillersAux, hf, hv, List.filter, ih]
      · simp [continuityFillersAux, hf, hv, List.filter, ih]
    · simp [continuityFillersAux, hf, List.filter, ih]

/-! ### Order facts for the `(k, s, e)` sort key -/

/-- Failing the strict lexicographic test is the lexicographic `≤`. -/
theorem rowLt_false_iff {α : Type u} (a b : Row α) :
    rowLt b a = false ↔
      (a.k < b.k ∨ (a.k = b.k ∧ (a.s < b.s ∨ (a.s = b.s ∧ a.e ≤ b.e)))) := by
  simp only [rowLt, decide_eq_false_iff_not, not_or, not_and, not_lt]
  constructor
  · intro h
    rcases lt_trichotomy a.k b.k with hk | hk | hk
    · exact Or.inl hk
    · refine Or.inr ⟨hk, ?_⟩
      have h2 := h.2 hk.symm
      rcases lt_trichotomy a.s b.s with hs | hs | hs
      · exact Or.inl hs
      · exact Or.inr ⟨hs, (h2.2 hs.symm)⟩
      · exact absurd h2.1 (by omega)
    · exact absurd h.1 (by omega)
  · intro h
    rcases h with hk | ⟨hk, hs⟩
    · exact ⟨by omega, fun he => by omega⟩
    · rcases hs with hs | ⟨hs, he⟩
      · exact ⟨by omega, fun _ => ⟨by omega, fun he => by omega⟩⟩
      · exact ⟨by omega, fun _ => ⟨by omega, fun _ => by omega⟩⟩

/-- Asymmetry of the row order. -/
theorem rowLt_asymm {α : Type u} {a b : Row α} (h : rowLt a b = true) :
    rowLt b a = false := by
  simp only [rowLt, decide_eq_true_eq] at h
  rw [rowLt_false_iff]
  omega

/-- Transitivity of the non-strict row order. -/
theorem rowLt_le_trans {α : Type u} {a b c : Row α}
    (h1 : rowLt b a = false) (h2 : rowLt c b = false) : rowLt c a = false := by
  rw [rowLt_false_iff] at h1 h2 ⊢
  omega

/-! ### Stable sort lemmas -/

/-- Insertion preserves the multiset of elements. -/
theorem insertSorted_perm {α : Type u} (lt : α → α → Bool) (x : α) (l : List α) :
    (insertSorted lt x l).Perm (x :: l) := by
  induction l with
  | nil => rfl
  | cons y ys ih =>
    by_cases h : lt y x
    · simpa [insertSorted, h] using ((ih.cons y).trans (List.Perm.swap x y ys))
    · simp [insertSorted, h]

/-- Sorting permutes the input. -/
theorem sortBy_perm {α : Type u} (lt : α → α → Bool) (l : List α) :
    (sortBy lt l).Perm l := by
  induction l with
  | nil => rfl
  | cons x xs ih => exact (insertSorted_perm lt x (sortBy lt xs)).trans (ih.cons x)

/-- Insertion into a list pairwise ordered by `¬ lt · ·` stays ordered,
for an asymmetric `lt` whose complement is transitive. -/
theorem insertSorted_pairwise {α : Type u} {lt : α → α → Bool}
    (hasym : ∀ a b, lt a b = true → lt b a = false)
    (htr : ∀ a b c, lt b a = false → lt c b = false → lt c a = false)
    {l : List α} (x : α) (hl : l.Pairwise (fun a b => lt b a = false)) :
    (insertSorted lt x l).Pairwise (fun a b => lt b a = false) := by
  induction l with
  | nil => simp [insertSorted]
  | cons y ys ih =>
    rcases List.pairwise_cons.mp hl with ⟨hy, hys⟩
    by_cases h : lt y x
    · rw [insertSorted, if_pos h]
      refine List.pairwise_cons.mpr ⟨?_, ih hys⟩
      intro z hz
      have hz' := (insertSorted_perm lt x ys).mem_iff.mp hz
      rcases List.mem_cons.mp hz' with rfl | hz''
      · exact hasym _ _ h
      · exact hy z hz''
    · rw [insertSorted, if_neg h]
      refine List.pairwise_cons.mpr ⟨?_, hl⟩
      intro z hz
      rcases List.mem_cons.mp hz with rfl | hz'
      · exact Bool.eq_false_iff.mpr (fun hc => h (by simp [hc]))
      · exact htr x y z (Bool.eq_false_iff.mpr (fun hc => h (by simp [hc]))) (hy z hz')

/-- Sorting orders the list, for an asymmetric `lt` with transitive complement. -/
theorem sortBy_pairwise {α : Type u} {lt : α → α → Bool}
    (hasym : ∀ a b, lt a b = true → lt b a = false)
    (htr : ∀ a b c, lt b a = false → lt c b = false → lt c a = false)
    (l : List α) : (sortBy lt l).Pairwise (fun a b => lt b a = false) := by
  induction l with
  | nil => simp [sortBy]
  | cons x xs ih => exact insertSorted_pairwise hasym htr x ih

/-! ### Run (chunk) decomposition lemmas -/

/-- Splitting into runs and rejoining gives back the list. -/
theorem chunkAux_join {α : Type u} (link : α → α → Bool) (x : α) (l : List α) :
    (x :: (chunkAux link x l).1) ++ ((chunkAux link x l).2).flatMap chunkJoin = x :: l := by
  induction l generalizing x with
  | nil => rfl
  | cons y ys ih =>
    by_cases h : link x y
    · simpa [chunkAux, h] using ih y
    · simpa [chunkAux, h, chunkJoin] using ih y

/-- The run decomposition flattens back to the original list. -/
theorem chunks_flatMap {α : Type u} (link : α → α → Bool) (l : List α) :
    (chunks link l).flatMap chunkJoin = l := by
  cases l with
  | nil => rfl
  | cons x xs => simpa [chunks, chunkJoin] using chunkAux_join link x xs

/-- Structure of the run decomposition: the run starting at `x` is
`link`-chained, every later run is `link`-chained from its head, and
consecutive runs are separated by a failing `link`. -/
theorem chunkAux_spec {α : Type u} (link : α → α → Bool) (x : α) (l : List α) :
    List.Chain (fun a b => link a b = true) x (chunkAux link x l).1 ∧
    (∀ d ∈ (chunkAux link x l).2, List.Chain (fun a b => link a b = true) d.1 d.2) ∧
    List.Chain' (fun c d => link (c.2.getLastD c.1) d.1 = false)
      ((x, (chunkAux link x l).1) :: (chunkAux link x l).2) := by
  induction l generalizing x with
  | nil => exact ⟨List.Chain.nil, by simp [chunkAux], by simp [chunkAux]⟩
  | cons y ys ih =>
    obtain ⟨ih1, ih2, ih3⟩ := ih y
    by_cases h : link x y
    · refine ⟨?_, ?_, ?_⟩
      · simp only [chunkAux, h, if_true]
        exact List.Chain.cons h ih1
      · simpa [chunkAux, h] using ih2
      · simp only [chunkAux, h, if_true]
        cases hcs : (chunkAux link y ys).2 with
        | nil => simp
        | cons d ds =>
          rw [hcs] at ih3
          refine List.chain'_cons.mpr ⟨?_, (List.chain'_cons.mp ih3).2⟩
          rw [List.getLastD_cons]
          exact (List.chain'_cons.mp ih3).1
    · have hns : link x y = false := Bool.eq_false_iff.mpr h
      refine ⟨?_, ?_, ?_⟩
      · simp [chunkAux, h]
      · intro d hd
        simp only [chunkAux, h, if_neg] at hd
        rcases List.mem_cons.mp hd with rfl | hd'
        · exact ih1
        · exact ih2 d hd'
      · simp only [chunkAux, h, if_neg]
        exact List.chain'_cons.mpr ⟨by simpa using hns, ih3⟩

/-- Every run of the decomposition is `link`-chained from its head. -/
theorem chunks_chain {α : Type u} (link : α → α → Bool) (l : List α) :
    ∀ c ∈ chunks link l, List.Chain (fun a b => link a b = true) c.1 c.2 := by
  cases l with
  | nil => simp [chunks]
  | cons x xs =>
    intro c hc
    obtain ⟨h1, h2, _⟩ := chunkAux_spec link x xs
    rcases List.mem_cons.mp hc with rfl | hc'
    · exact h1
    · exact h2 c hc'

/-- Consecutive runs are separated by a failing `link`. -/
theorem chunks_boundary {α : Type u} (link : α → α → Bool) (l : List α) :
    List.Chain' (fun c d => link (c.2.getLastD c.1) d.1 = false) (chunks link l) := by
  cases l with
  | nil => simp [chunks]
  | cons x xs => exact (chunkAux_spec link x xs).2.2

/-! ### `identical` flags as run blocks -/

/-- Pointwise identity between the flag conjunction of
`aggregate_constant` and `linkRow`. -/
theorem linkRow_flag {α : Type u} (peq : α → α → Bool) (a b : Row α) :
    (peq a.p b.p && !(decide (b.k ≠ a.k) || decide (b.s ≠ a.e))) = linkRow peq a b := by
  unfold linkRow
  cases hp : peq a.p b.p <;> by_cases hk : a.k = b.k <;> by_cases he : a.e = b.s <;>
    simp [hp, hk, he, eq_comm] <;> omega

/-- The `identical` flags are the adjacent `linkRow` tests followed by a
final `false`. -/
theorem identicalFlags_eq_zip {α : Type u} (peq : α → α → Bool) (x : Row α)
    (xs : List (Row α)) :
    identicalFlags peq (x :: xs) =
      List.zipWith (linkRow peq) (x :: xs) xs ++ [false] := by
  suffices h : ∀ (x : Row α) (xs : List (Row α)),
      List.zipWith (fun a b => peq a.p b.p) (x :: xs) xs =
        List.zipWith (fun a b => peq a.p b.p) (x :: xs) xs ∧
      List.zipWith and (List.zipWith (fun a b => peq a.p b.p) (x :: xs) xs)
          ((discontinuityAux x xs).map (fun b => !b)) =
        List.zipWith (linkRow peq) (x :: xs) xs by
    have h2 := (h x xs).2
    simp only [identicalFlags, compute_discontinuity, List.tail_cons]
    rw [h2]
  intro x xs
  refine ⟨rfl, ?_⟩
  induction xs generalizing x with
  | nil => rfl
  | cons y ys ih =>
    simp only [discontinuityAux, List.zipWith_cons_cons, List.map_cons]
    rw [linkRow_flag]
    exact congrArg _ (ih y)

/-- The adjacent `link` tests of a list, with the final `false`, are the
concatenation of one `true`-block per run: `length - 1` times `true`
then one `false`. -/
theorem zip_link_blocks {α : Type u} (link : α → α → Bool) (x : α) (xs : List α) :
    List.zipWith link (x :: xs) xs ++ [false] =
      (chunks link (x :: xs)).flatMap
        (fun c => List.replicate c.2.length true ++ [false]) := by
  induction xs generalizing x with
  | nil => rfl
  | cons y ys ih =>
    by_cases h : link x y
    · have hx : chunks link (x :: y :: ys) =
          (x, y :: (chunkAux link y ys).1) :: (chunkAux link y ys).2 := by
        simp [chunks, chunkAux, h]
      have hy : chunks link (y :: ys) =
          (y, (chunkAux link y ys).1) :: (chunkAux link y ys).2 := by
        simp [chunks]
      rw [hx]
      simp only [List.zipWith_cons_cons, List.flatMap_cons, List.length_cons,
        List.replicate_succ, List.cons_append, h]
      refine congrArg _ ?_
      have := ih y
      rw [hy] at this
      simpa using this
    · have hns : link x y = false := Bool.eq_false_iff.mpr h
      have hx : chunks link (x :: y :: ys) =
          (x, []) :: (y, (chunkAux link y ys).1) :: (chunkAux link y ys).2 := by
        simp [chunks, chunkAux, h]
      have hy : chunks link (y :: ys) =
          (y, (chunkAux link y ys).1) :: (chunkAux link y ys).2 := by
        simp [chunks]
      rw [hx]
      simp only [List.zipWith_cons_cons, List.flatMap_cons, List.length_nil,
        List.replicate_zero, List.nil_append, List.cons_append, hns]
      refine congrArg _ ?_
      have := ih y
      rw [hy] at this
      simpa using this

/-- The `identical` flags of a frame are the run-block flags of its
`linkRow` decomposition. -/
theorem identicalFlags_blocks {α : Type u} (peq : α → α → Bool) (l : List (Row α)) :
    identicalFlags peq l =
      (chunks (linkRow peq) l).flatMap
        (fun c => List.replicate c.2.length true ++ [false]) := by
  cases l with
  | nil => rfl
  | cons x xs => rw [identicalFlags_eq_zip, zip_link_blocks]

/-! ### Flag and scan columns over run blocks -/

/-- Unfolding of `aggStartFlags` on a non-empty flag list. -/
theorem aggStartFlags_eq {l : List Bool} (h : l ≠ []) :
    aggStartFlags l = true :: (l.dropLast.map (fun b => !b)) := by
  cases l with
  | nil => exact absurd rfl h
  | cons x xs => rfl

/-- One flag block is never empty. -/
theorem flagBlock_ne_nil {α : Type u} (c : α × List α) :
    (List.replicate c.2.length true ++ [false]) ≠ [] := by simp

/-- The run-start flags of block-structured `identical` flags: one
`true` per run head, `false` inside each run. -/
theorem aggStartFlags_blocks {β : Type v} (CS : List (β × List β)) (h : CS ≠ []) :
    aggStartFlags (CS.flatMap (fun c => List.replicate c.2.length true ++ [false])) =
      CS.flatMap (fun c => true :: List.replicate c.2.length false) := by
  induction CS with
  | nil => exact absurd rfl h
  | cons c cs ih =>
    cases cs with
    | nil =>
      rw [List.flatMap_cons, List.flatMap_nil, List.append_nil,
        aggStartFlags_eq (flagBlock_ne_nil c), List.dropLast_concat]
      simp
    | cons d ds =>
      have hrest : ((d :: ds).flatMap
          (fun c => List.replicate c.2.length true ++ [false])) ≠ [] := by
        rw [List.flatMap_cons]
        exact List.append_ne_nil_of_left_ne_nil (flagBlock_ne_nil d) _
      rw [List.flatMap_cons, aggStartFlags_eq
        (List.append_ne_nil_of_left_ne_nil (flagBlock_ne_nil c) _),
        List.dropLast_append_of_ne_nil _ hrest]
      have ihr := ih (by simp)
      rw [aggStartFlags_eq hrest] at ihr
      conv_rhs => rw [List.flatMap_cons]
      rw [← ihr]
      simp [List.map_append, List.append_assoc]

/-- The run-end flags of block-structured `identical` flags: `false`
inside each run, one `true` per run end. -/
theorem aggEndFlags_blocks {β : Type v} (CS : List (β × List β)) :
    aggEndFlags (CS.flatMap (fun c => List.replicate c.2.length true ++ [false])) =
      CS.flatMap (fun c => List.replicate c.2.length false ++ [true]) := by
  simp [aggEndFlags, List.map_flatMap]

/-- Zipping two block-structured columns works blockwise when the block
lengths agree. -/
theorem zipWith_flatMap_blocks {α : Type u} {β : Type v} {γ : Type w} {δ : Type u}
    (f : α → β → γ) (g1 : δ → List α) (g2 : δ → List β) (CS : List δ)
    (hlen : ∀ c ∈ CS, (g1 c).length = (g2 c).length) :
    List.zipWith f (CS.flatMap g1) (CS.flatMap g2) =
      CS.flatMap (fun c => List.zipWith f (g1 c) (g2 c)) := by
  induction CS with
  | nil => rfl
  | cons c cs ih =>
    rw [List.flatMap_cons, List.flatMap_cons, List.flatMap_cons,
      List.zipWith_append _ _ _ _ _ (hlen c (List.mem_cons_self c cs)),
      ih (fun d hd => hlen d (List.mem_cons_of_mem c hd))]

/-- A masked column over all-false flags is all missing. -/
theorem zipWith_flag_none {α : Type u} (v : Row α → Int) (t : List (Row α)) :
    List.zipWith (fun (r : Row α) f => if f then some (v r) else none) t
      (List.replicate t.length false) = List.replicate t.length none := by
  induction t with
  | nil => rfl
  | cons y ys ih => simpa [List.replicate_succ] using ih

/-- The run-start column of one run: the head's value then missing. -/
theorem zipWith_start_chunk {α : Type u} (v : Row α → Int) (c : Row α × List (Row α)) :
    List.zipWith (fun (r : Row α) f => if f then some (v r) else none) (chunkJoin c)
      (true :: List.replicate c.2.length false) =
      some (v c.1) :: List.replicate c.2.length none := by
  simp [chunkJoin, zipWith_flag_none]

/-- The run-end column of one run: missing then the last value. -/
theorem zipWith_end_chunk {α : Type u} (v : Row α → Int) (c : Row α × List (Row α)) :
    List.zipWith (fun (r : Row α) f => if f then some (v r) else none) (chunkJoin c)
      (List.replicate c.2.length false ++ [true]) =
      List.replicate c.2.length none ++ [some (v (c.2.getLastD c.1))] := by
  obtain ⟨h, t⟩ := c
  induction t generalizing h with
  | nil => rfl
  | cons y ys ih =>
    have hih := ih y
    simp only [chunkJoin] at hih ⊢
    rw [List.getLastD_cons, List.length_cons, List.replicate_succ, List.replicate_succ,
      List.cons_append, List.cons_append, List.zipWith_cons_cons]
    simpa using hih

/-- Forward fill walks over a missing block. -/
theorem ffillAux_replicate_none {β : Type v} (u : Option β) (n : Nat)
    (rest : List (Option β)) :
    ffillAux u (List.replicate n none ++ rest) =
      List.replicate n u ++ ffillAux u rest := by
  induction n with
  | zero => rfl
  | succ m ih => simpa [List.replicate_succ, ffillAux] using ih

/-- Forward fill over blocks each led by a present value. -/
theorem ffill_blocks {β : Type v} {γ : Type w} (v : γ → β) (n : γ → Nat)
    (CS : List γ) (u : Option β) :
    ffillAux u (CS.flatMap (fun c => some (v c) :: List.replicate (n c) none)) =
      CS.flatMap (fun c => List.replicate (n c + 1) (some (v c))) := by
  induction CS generalizing u with
  | nil => rfl
  | cons c cs ih =>
    rw [List.flatMap_cons, List.flatMap_cons, List.cons_append, List.replicate_succ]
    show some (v c) :: ffillAux (some (v c)) _ = _
    rw [ffillAux_replicate_none, ih]
    simp

/-- Backward fill over blocks each ended by a present value. -/
theorem bfill_blocks {β : Type v} {γ : Type w} (v : γ → β) (n : γ → Nat)
    (CS : List γ) :
    bfill (CS.flatMap (fun c => List.replicate (n c) none ++ [some (v c)])) =
      CS.flatMap (fun c => List.replicate (n c + 1) (some (v c))) := by
  unfold bfill ffill
  rw [List.reverse_flatMap]
  have h1 : ∀ c ∈ CS.reverse,
      (List.reverse ∘ fun c => List.replicate (n c) none ++ [some (v c)]) c =
        some (v c) :: List.replicate (n c) none := by
    intro c _
    simp [List.reverse_append, List.reverse_replicate]
  rw [List.flatMap_congr h1, ffill_blocks v n CS.reverse none, List.reverse_flatMap]
  rw [List.flatMap_congr (g := fun c => List.replicate (n c + 1) (some (v c)))
    (by intro c _; simp [List.reverse_replicate])]
  simp

/-- Zipping two equal-length constant blocks. -/
theorem zipWith_replicate_same {α : Type u} {β : Type v} {γ : Type w}
    (f : α → β → γ) (n : Nat) (a : α) (b : β) :
    List.zipWith f (List.replicate n a) (List.replicate n b) =
      List.replicate n (f a b) := by
  induction n with
  | zero => rfl
  | succ m ih => simpa [List.replicate_succ] using ih

/-- Zipping a list against a constant block of its own length. -/
theorem zipWith_mk_replicate_right {β : Type v} {γ : Type w} (t : List β) (xv : γ) :
    List.zipWith Prod.mk t (List.replicate t.length xv) =
      t.map (fun r => (r, xv)) := by
  induction t with
  | nil => rfl
  | cons y ys ih => simpa [List.replicate_succ] using ih

/-- Passing `np.equal` forces equal present values. -/
theorem np_equal_eq {a b : Option Int} (h : np_equal a b = true) : a = b := by
  cases a <;> cases b <;> simp_all [np_equal]

/-- All members of a `linkRow`-chained run share the head's key and
payload (for `np.equal` payload equality). -/
theorem chain_members_kp {hd : Row (Option Int)} {t : List (Row (Option Int))}
    (hc : List.Chain (fun a b => linkRow np_equal a b = true) hd t) :
    ∀ r ∈ hd :: t, r.k = hd.k ∧ r.p = hd.p := by
  induction t generalizing hd with
  | nil => intro r hr; rcases List.mem_singleton.mp hr with rfl; exact ⟨rfl, rfl⟩
  | cons y ys ih =>
    rcases List.chain_cons.mp hc with ⟨hlink, hrest⟩
    have hky : y.k = hd.k ∧ y.p = hd.p := by
      simp only [linkRow, Bool.and_eq_true, decide_eq_true_eq] at hlink
      exact ⟨hlink.1.1.symm, (np_equal_eq hlink.2).symm⟩
    intro r hr
    rcases List.mem_cons.mp hr with rfl | hr'
    · exact ⟨rfl, rfl⟩
    · obtain ⟨h1, h2⟩ := ih hrest r hr'
      exact ⟨h1.trans hky.1, h2.trans hky.2⟩

/-- Re-bounding each member of a run yields copies of the collapsed
row. -/
theorem chunk_map_collapse (c : Row (Option Int) × List (Row (Option Int)))
    (hc : List.Chain (fun a b => linkRow np_equal a b = true) c.1 c.2) :
    (chunkJoin c).map (fun r => Row.mk r.k c.1.s ((c.2.getLastD c.1).e) r.p) =
      List.replicate (c.2.length + 1) (collapseChunk c) := by
  have hmem := chain_members_kp hc
  have hlen : ((chunkJoin c).map
      (fun r => Row.mk r.k c.1.s ((c.2.getLastD c.1).e) r.p)).length =
      c.2.length + 1 := by simp [chunkJoin]
  rw [← hlen]
  refine List.eq_replicate_of_mem ?_
  intro b hb
  rcases List.mem_map.mp hb with ⟨r, hr, rfl⟩
  obtain ⟨h1, h2⟩ := hmem r hr
  simp [collapseChunk, h1, h2]

/-- The re-bounded frame of `aggregate_constant` is, run by run, the
collapsed row repeated once per member. -/
theorem aggNewRows_blocks (l : List (Row (Option Int))) :
    aggNewRows l (identicalFlags np_equal l) =
      (chunks (linkRow np_equal) l).flatMap
        (fun c => List.replicate (c.2.length + 1) (collapseChunk c)) := by
  cases l with
  | nil => rfl
  | cons x xs =>
    have hne : chunks (linkRow np_equal) (x :: xs) ≠ [] := by simp [chunks]
    have hflat := chunks_flatMap (linkRow np_equal) (x :: xs)
    have hchain := chunks_chain (linkRow np_equal) (x :: xs)
    set CS := chunks (linkRow np_equal) (x :: xs) with hCSdef
    simp only [aggNewRows]
    rw [identicalFlags_blocks, ← hCSdef, aggStartFlags_blocks CS hne,
      aggEndFlags_blocks CS, ← hflat]
    rw [zipWith_flatMap_blocks _ chunkJoin _ CS (by intro c _; simp [chunkJoin]),
      zipWith_flatMap_blocks _ chunkJoin _ CS (by intro c _; simp [chunkJoin]),
      List.flatMap_congr (fun c _ => zipWith_start_chunk (fun r => r.s) c),
      List.flatMap_congr (fun c _ => zipWith_end_chunk (fun r => r.e) c)]
    show ((CS.flatMap chunkJoin).zip
      ((ffillAux none _).zip (bfill _))).map _ = _
    rw [ffill_blocks (fun c => c.1.s) (fun c => c.2.length) CS none,
      bfill_blocks (fun c => (c.2.getLastD c.1).e) (fun c => c.2.length) CS]
    simp only [List.zip_eq_zipWith]
    rw [zipWith_flatMap_blocks Prod.mk _ _ CS (by intro c _; simp),
      List.flatMap_congr (l := CS)
        (f := fun c => List.zipWith Prod.mk
          (List.replicate (c.2.length + 1) (some c.1.s))
          (List.replicate (c.2.length + 1) (some ((c.2.getLastD c.1).e))))
        (fun c _ => zipWith_replicate_same Prod.mk (c.2.length + 1)
          (some c.1.s) (some ((c.2.getLastD c.1).e))),
      zipWith_flatMap_blocks Prod.mk chunkJoin _ CS (by intro c _; simp [chunkJoin]),
      List.map_flatMap]
    refine List.flatMap_congr ?_
    intro c hc
    rw [show (List.replicate (c.2.length + 1)
        (some c.1.s, some ((c.2.getLastD c.1).e))) =
        List.replicate (chunkJoin c).length
          (some c.1.s, some ((c.2.getLastD c.1).e)) by simp [chunkJoin],
      zipWith_mk_replicate_right, List.map_map]
    have := chunk_map_collapse c (hchain c hc)
    simpa using this

/-! ### Deduplication of the replicated collapsed rows -/

/-- Copies of an already-seen value are all dropped. -/
theorem dedupByAux_replicate_mem {γ : Type w} [DecidableEq γ] {v : γ}
    {seen : List γ} (h : v ∈ seen) (m : Nat) (rest : List γ) :
    dedupByAux id (List.replicate m v ++ rest) seen = dedupByAux id rest seen := by
  induction m with
  | zero => rfl
  | succ j ih => simpa [List.replicate_succ, dedupByAux, h] using ih

/-- Deduplicating blocks of repeated, pairwise-distinct values keeps one
copy per block. -/
theorem dedupByAux_blocks {β : Type v} {γ : Type w} [DecidableEq γ]
    (g : β → γ) (n : β → Nat) :
    ∀ (CS : List β) (seen : List γ), (∀ c ∈ CS, g c ∉ seen) →
      List.Pairwise (fun c d => g c ≠ g d) CS →
      dedupByAux id (CS.flatMap (fun c => List.replicate (n c + 1) (g c))) seen =
        CS.map g := by
  intro CS
  induction CS with
  | nil => intro seen _ _; rfl
  | cons c cs ih =>
    intro seen hseen hnd
    rw [List.flatMap_cons, List.replicate_succ, List.cons_append]
    have hnotin : g c ∉ seen := hseen c (List.mem_cons_self c cs)
    show dedupByAux id _ seen = _
    rw [dedupByAux]
    simp only [id_eq, hnotin, if_neg, ite_false]
    rw [dedupByAux_replicate_mem (List.mem_cons_self (g c) seen)]
    rcases List.pairwise_cons.mp hnd with ⟨hc, hcs⟩
    rw [ih (g c :: seen) ?_ hcs]
    · rfl
    · intro d hd
      simp only [List.mem_cons, not_or]
      exact ⟨fun he => (hc d hd) he.symm, hseen d (List.mem_cons_of_mem c hd)⟩

/-- Deduplication of the replicated collapsed rows keeps exactly one
row per run, in run order. -/
theorem dedupBy_blocks {β : Type v} {γ : Type w} [DecidableEq γ]
    (g : β → γ) (n : β → Nat) (CS : List β)
    (hnd : List.Pairwise (fun c d => g c ≠ g d) CS) :
    dedupBy id (CS.flatMap (fun c => List.replicate (n c + 1) (g c))) = CS.map g :=
  dedupByAux_blocks g n CS [] (by simp) hnd

/-- Destructuring a successful `linkRow` test. -/
theorem linkRow_dest {α : Type u} {peq : α → α → Bool} {a b : Row α}
    (h : linkRow peq a b = true) :
    a.k = b.k ∧ a.e = b.s ∧ peq a.p b.p = true := by
  simp only [linkRow, Bool.and_eq_true, decide_eq_true_eq] at h
  exact ⟨h.1.1, h.1.2, h.2⟩

/-- Collapsed rows of distinct runs differ: their heads share track and
start, so equal collapses would make the heads overlap. -/
theorem collapse_pairwise_ne (l : List (Row (Option Int)))
    (hv : validRows l) (ha : nonOverlapping l) :
    List.Pairwise (fun c d => collapseChunk c ≠ collapseChunk d)
      (chunks (linkRow np_equal) l) := by
  have hflat := chunks_flatMap (linkRow np_equal) l
  have hpw : List.Pairwise (fun (r r' : Row (Option Int)) =>
      r.k = r'.k → r.e ≤ r'.s ∨ r'.e ≤ r.s)
      ((chunks (linkRow np_equal) l).flatMap chunkJoin) := by rw [hflat]; exact ha
  have hcross := (List.pairwise_flatMap.mp hpw).2
  refine hcross.imp_of_mem ?_
  intro c d hc hd h hcd
  have hheadc : c.1 ∈ l := by
    rw [← hflat]; exact List.mem_flatMap.mpr ⟨c, hc, List.mem_cons_self _ _⟩
  have hheadd : d.1 ∈ l := by
    rw [← hflat]; exact List.mem_flatMap.mpr ⟨d, hd, List.mem_cons_self _ _⟩
  have hvc := hv c.1 hheadc
  have hvd := hv d.1 hheadd
  have hdisj := h c.1 (List.mem_cons_self _ _) d.1 (List.mem_cons_self _ _)
  simp only [collapseChunk, Row.mk.injEq] at hcd
  have hdisj2 := hdisj hcd.1
  omega

/-! ### Members linked in a sorted admissible frame are adjacent -/

/-- In a `(k, s, e)`-sorted valid admissible frame, any two member rows
passing the `linkRow` test produce some adjacent `identical` flag. -/
theorem link_members_zip_any (l : List (Row (Option Int)))
    (hs : l.Pairwise (fun a b => rowLt b a = false))
    (hv : validRows l) (ha : nonOverlapping l)
    {x y : Row (Option Int)} (hx : x ∈ l) (hy : y ∈ l)
    (hxy : linkRow np_equal x y = true) :
    (List.zipWith (linkRow np_equal) l l.tail).any id = true := by
  obtain ⟨hk, he, _⟩ := linkRow_dest hxy
  induction l with
  | nil => cases hx
  | cons a rest ih =>
    cases rest with
    | nil =>
      have hx1 := List.mem_singleton.mp hx
      have hy1 := List.mem_singleton.mp hy
      have hva := hv a (List.mem_cons_self _ _)
      rw [hx1] at he
      rw [hy1] at he
      omega
    | cons b rest2 =>
      by_cases hxa : x = a
      · subst hxa
        rcases List.mem_cons.mp hy with rfl | hy'
        · have := hv y (List.mem_cons_self _ _)
          omega
        · rcases List.mem_cons.mp hy' with rfl | hy2
          · simp [hxy]
          · exfalso
            have hab : rowLt b x = false :=
              List.rel_of_pairwise_cons hs (List.mem_cons_self b rest2)
            have hby : rowLt y b = false :=
              List.rel_of_pairwise_cons (List.pairwise_cons.mp hs).2 hy2
            have hdab := List.rel_of_pairwise_cons ha (List.mem_cons_self b rest2)
            have hdby :=
              List.rel_of_pairwise_cons (List.pairwise_cons.mp ha).2 hy2
            have hvx := hv x (List.mem_cons_self _ _)
            have hvb := hv b (List.mem_cons_of_mem _ (List.mem_cons_self _ _))
            have hvy := hv y (List.mem_cons_of_mem _ (List.mem_cons_of_mem _ hy2))
            rw [rowLt_false_iff] at hab hby
            have hkb : x.k = b.k := by omega
            have hd1 := hdab hkb
            have hd2 := hdby (by omega)
            omega
      · have hx' : x ∈ b :: rest2 := by
          rcases List.mem_cons.mp hx with rfl | h2
          · exact absurd rfl hxa
          · exact h2
        rcases List.mem_cons.mp hy with rfl | hy'
        · exfalso
          have hax : rowLt x y = false := List.rel_of_pairwise_cons hs hx'
          have hvx := hv x (List.mem_cons_of_mem _ hx')
          rw [rowLt_false_iff] at hax
          omega
        · have := ih (List.pairwise_cons.mp hs).2
            (fun r hr => hv r (List.mem_cons_of_mem _ hr))
            (List.pairwise_cons.mp ha).2 hx' hy'
          simp only [List.tail_cons] at this ⊢
          rw [List.zipWith_cons_cons, List.any_cons]
          rw [this]
          simp

/-- Wrapper: linked members force a true `identical` flag. -/
theorem link_members_any_flag (l : List (Row (Option Int)))
    (hs : l.Pairwise (fun a b => rowLt b a = false))
    (hv : validRows l) (ha : nonOverlapping l)
    {x y : Row (Option Int)} (hx : x ∈ l) (hy : y ∈ l)
    (hxy : linkRow np_equal x y = true) :
    (identicalFlags np_equal l).any id = true := by
  cases l with
  | nil => cases hx
  | cons a rest =>
    rw [identicalFlags_eq_zip, List.any_append]
    have h2 := link_members_zip_any (a :: rest) hs hv ha hx hy hxy
    simp only [List.tail_cons] at h2
    rw [h2]
    rfl

/-! ### Coverage of a run -/

/-- Within a run, every member lies between the head's start and the
last member's end. -/
theorem chain_bounds {hd : Row (Option Int)} {t : List (Row (Option Int))}
    (hv : ∀ r ∈ hd :: t, r.s < r.e)
    (hc : List.Chain (fun a b => linkRow np_equal a b = true) hd t) :
    ∀ r ∈ hd :: t, hd.s ≤ r.s ∧ r.e ≤ (t.getLastD hd).e := by
  induction t generalizing hd with
  | nil =>
    intro r hr
    rcases List.mem_singleton.mp hr with rfl
    exact ⟨le_refl _, le_refl _⟩
  | cons y ys ih =>
    rcases List.chain_cons.mp hc with ⟨hlink, hrest⟩
    obtain ⟨_, hes, _⟩ := linkRow_dest hlink
    have hvh := hv hd (List.mem_cons_self _ _)
    have ihy := ih (fun r hr => hv r (List.mem_cons_of_mem _ hr)) hrest
    intro r hr
    rw [List.getLastD_cons]
    rcases List.mem_cons.mp hr with rfl | hr'
    · have h2 := ihy y (List.mem_cons_self _ _)
      have hvy := hv y (List.mem_cons_of_mem _ (List.mem_cons_self _ _))
      exact ⟨le_refl _, by omega⟩
    · have h2 := ihy r hr'
      omega

/-- Within a run, the members jointly cover the collapsed interval. -/
theorem chain_cover {hd : Row (Option Int)} {t : List (Row (Option Int))}
    (hv : ∀ r ∈ hd :: t, r.s < r.e)
    (hc : List.Chain (fun a b => linkRow np_equal a b = true) hd t) :
    ∀ x : Int, hd.s ≤ x → x < (t.getLastD hd).e →
      ∃ r ∈ hd :: t, r.s ≤ x ∧ x < r.e := by
  induction t generalizing hd with
  | nil =>
    intro x h1 h2
    exact ⟨hd, List.mem_cons_self _ _, h1, h2⟩
  | cons y ys ih =>
    intro x h1 h2
    rcases List.chain_cons.mp hc with ⟨hlink, hrest⟩
    obtain ⟨_, hes, _⟩ := linkRow_dest hlink
    by_cases hcase : x < hd.e
    · exact ⟨hd, List.mem_cons_self _ _, h1, hcase⟩
    · have h3 : y.s ≤ x := by omega
      rw [List.getLastD_cons] at h2
      obtain ⟨r, hr, hrx⟩ :=
        ih (fun r hr => hv r (List.mem_cons_of_mem _ hr)) hrest x h3 h2
      exact ⟨r, List.mem_cons_of_mem _ hr, hrx⟩

/-- A member of a multi-element run has a linked neighbour in the run. -/
theorem chain_has_neighbour {hd : Row (Option Int)} {t : List (Row (Option Int))}
    (hc : List.Chain (fun a b => linkRow np_equal a b = true) hd t)
    {r : Row (Option Int)} (hr : r ∈ hd :: t) (hne : t ≠ []) :
    ∃ w ∈ hd :: t, linkRow np_equal w r = true ∨ linkRow np_equal r w = true := by
  induction t generalizing hd with
  | nil => exact absurd rfl hne
  | cons y ys ih =>
    rcases List.chain_cons.mp hc with ⟨hlink, hrest⟩
    rcases List.mem_cons.mp hr with rfl | hr'
    · exact ⟨y, List.mem_cons_of_mem _ (List.mem_cons_self _ _), Or.inr hlink⟩
    · rcases List.mem_cons.mp hr' with rfl | hr2
      · exact ⟨hd, List.mem_cons_self _ _, Or.inl hlink⟩
      · cases ys with
        | nil => cases hr2
        | cons z zs =>
          obtain ⟨w, hw, hlw⟩ := ih hrest (List.mem_cons_of_mem _ hr2) (by simp)
          exact ⟨w, List.mem_cons_of_mem _ hw, hlw⟩

/-- Membership-aware transfer of `Chain'` along a map. -/
theorem chain'_map_mem {β : Type v} {γ : Type w} {R : β → β → Prop}
    {S : γ → γ → Prop} (f : β → γ) :
    ∀ (L : List β), (∀ c ∈ L, ∀ d ∈ L, R c d → S (f c) (f d)) →
      List.Chain' R L → List.Chain' S (L.map f)
  | [], _, _ => List.chain'_nil
  | [_], _, _ => by simp
  | c :: d :: rest, himp, hch => by
    rcases List.chain'_cons.mp hch with ⟨hcd, hrest⟩
    rw [List.map_cons, List.map_cons]
    refine List.chain'_cons.mpr ⟨?_, ?_⟩
    · exact himp c (List.mem_cons_self _ _)
        d (List.mem_cons_of_mem _ (List.mem_cons_self _ _)) hcd
    · rw [← List.map_cons]
      exact chain'_map_mem f (d :: rest)
        (fun a ha b hb hab =>
          himp a (List.mem_cons_of_mem _ ha) b (List.mem_cons_of_mem _ hb) hab)
        hrest

end Crep

namespace Crep

/-! ## Claim theorems -/

/-- C2: for every pair of left/right tables, the row multiset of the
inner merge is contained in those of the left and right merges, which
are contained in that of the outer merge: the four variants filter one
shared augmented frame by implication-ordered sentinel predicates
(base.py 75-80). -/
theorem C2_merge_join_kind_subsets {α : Type u} {β : Type v}
    (L : List (Row α)) (R : List (Row β)) :
    (∀ r ∈ merge L R How.inner, r ∈ merge L R How.left) ∧
    (∀ r ∈ merge L R How.left, r ∈ merge L R How.outer) ∧
    (∀ r ∈ merge L R How.inner, r ∈ merge L R How.right) ∧
    (∀ r ∈ merge L R How.right, r ∈ merge L R How.outer) := by
  refine ⟨merge_mono L R _ _ ?_, merge_mono L R _ _ ?_,
    merge_mono L R _ _ ?_, merge_mono L R _ _ ?_⟩ <;>
    intro x hx <;> simp [howKeep] at hx ⊢ <;> tauto

/-- C2 witness: a concrete inner-merge row of the example tables is
also a row of the left, right, and outer merges. -/
theorem C2_witness :
    (⟨1, 5, 80, some 2, some 2⟩ : MOut Int Int) ∈ merge exL8 exR8 How.inner ∧
    (⟨1, 5, 80, some 2, some 2⟩ : MOut Int Int) ∈ merge exL8 exR8 How.left ∧
    (⟨1, 5, 80, some 2, some 2⟩ : MOut Int Int) ∈ merge exL8 exR8 How.right ∧
    (⟨1, 5, 80, some 2, some 2⟩ : MOut Int Int) ∈ merge exL8 exR8 How.outer := by
  have h := C2_merge_join_kind_subsets exL8 exR8
  have hin : (⟨1, 5, 80, some 2, some 2⟩ : MOut Int Int) ∈ merge exL8 exR8 How.inner := by
    decide
  exact ⟨hin, h.1 _ hin, h.2.2.1 _ hin, h.2.1 _ (h.1 _ hin)⟩

/-- C8 counterexample: on the specification's own example inputs the
outer merge returns 6 rows, not the claimed 7 (the `[90,100)` segment of
track 2 is uncovered on both sides and is dropped by the
`left_idx + right_idx == -2` filter, base.py 457-458). -/
theorem C8_counterexample : (merge exL8 exR8 How.outer).length = 6 := by decide

/-- C8 amended: the outer merge of the example inputs returns exactly
these 6 rows, with `data2` null exactly on the `id=1` segments `[0,5)`
and `[80,100)`. -/
theorem C8_outer_example_rows :
    merge exL8 exR8 How.outer =
      [⟨1, 0, 5, some 2, none⟩, ⟨1, 5, 80, some 2, some 2⟩,
       ⟨1, 80, 100, some 2, none⟩, ⟨2, 0, 90, some 1, some 1⟩,
       ⟨2, 100, 120, some 3, some 3⟩, ⟨2, 120, 130, some 2, some 3⟩] ∧
    ((merge exL8 exR8 How.outer).filter (fun r => r.pr.isNone)).map
        (fun r => (r.k, r.t1, r.t2)) = [(1, 0, 5), (1, 80, 100)] := by decide

/-- C1: evaluation at the failing input.  On a track with two
overlapping rows, `build_admissible_data` keeps one output row per
covering source row, so the shared fine segment `[5,10)` appears twice
and the output fails the library's own `admissible_dataframe` check. -/
theorem C1_build_admissible_failing_input :
    build_admissible_data exC1 =
      [⟨0, 0, 5, some 1⟩, ⟨0, 5, 10, some 1⟩, ⟨0, 5, 10, some 2⟩, ⟨0, 10, 15, some 2⟩] ∧
    admissible_dataframe (build_admissible_data exC1) = false := by decide

/-- C3: evaluation at the failing input.  `unbalanced_merge` keeps only
rows of override origin (`~__t__`, base.py 150), so with an empty
override table every base segment vanishes and the output covers
nothing, not the union of both coverages. -/
theorem C3_unbalanced_merge_failing_input :
    unbalanced_merge exC3base ([] : List (Row (Option Int))) = [] ∧
    exC3base ≠ [] := by decide

/-- C9 counterexample: `build_admissible_data` renumbers its argument's
row index in place (tools.py line 17), so the argument frame differs
after the call. -/
theorem C9_counterexample : build_admissible_data_arg_state exC9 ≠ exC9 := by decide

/-- C9 amended: no public operation changes the rows of its arguments;
`merge`, `unbalanced_merge`, `aggregate_constant`, `merge_event`,
`create_regular_segment_segmentation` and `create_continuity` leave
their arguments entirely unchanged, while `build_admissible_data`
renumbers its argument's index to `0..n-1` in place, keeping the rows. -/
theorem C9_argument_mutation_footprint (α β : Type) :
    (∀ (l : PandasDf α) (r : PandasDf β), merge_arg_states l r = (l, r)) ∧
    (∀ (l : PandasDf α) (r : PandasDf β), unbalanced_merge_arg_states l r = (l, r)) ∧
    (∀ d : PandasDf α, aggregate_constant_arg_state d = d) ∧
    (∀ (l : PandasDf α) (r : PandasDf β), merge_event_arg_states l r = (l, r)) ∧
    (∀ d : PandasDf α, create_regular_segment_segmentation_arg_state d = d) ∧
    (∀ d : PandasDf α, create_continuity_arg_state d = d) ∧
    (∀ d : PandasDf α, (build_admissible_data_arg_state d).rows = d.rows ∧
      (build_admissible_data_arg_state d).idx = (List.range d.rows.length).map Int.ofNat) :=
  ⟨fun _ _ => rfl, fun _ _ => rfl, fun _ => rfl, fun _ _ => rfl,
   fun _ => rfl, fun _ => rfl, fun _ => ⟨rfl, rfl⟩⟩

/-- C10: when the input has a discontinuity, every output row of
`create_continuity` satisfies `start < end` (original zero- or
negative-width rows are removed by the final filter, tools.py 200);
when it has none, the input is returned unchanged. -/
theorem C10_create_continuity_positive_width (T : List (Row (Option Int))) :
    (hasDiscontinuity T = true →
      ∀ r ∈ create_continuity (none : Option Int) T, r.s < r.e) ∧
    (hasDiscontinuity T = false → create_continuity (none : Option Int) T = T) := by
  constructor
  · intro h r hr
    simp only [create_continuity, create_continuity_full, h, if_true] at hr
    simpa using (List.mem_filter.mp hr).2
  · intro h
    exact create_continuity_of_no_disc none T h

/-- C10 witness: the flagged example drops its zero-width row and keeps
only positive segments, while the discontinuity-free example returns
unchanged. -/
theorem C10_witness :
    (hasDiscontinuity exC10 = true ∧
      ∀ r ∈ create_continuity (none : Option Int) exC10, r.s < r.e) ∧
    (hasDiscontinuity exNoDisc = false ∧
      create_continuity (none : Option Int) exNoDisc = exNoDisc) :=
  ⟨⟨by decide, (C10_create_continuity_positive_width exC10).1 (by decide)⟩,
   ⟨by decide, (C10_create_continuity_positive_width exNoDisc).2 (by decide)⟩⟩

/-- C4 counterexample: on a sorted valid table with one gap the second
application appends a duplicate filler (the fillers of the first pass
are appended unsorted, so they are re-flagged), hence `create_continuity`
is not idempotent. -/
theorem C4_counterexample :
    create_continuity (none : Option Int) (create_continuity none exC4) ≠
      create_continuity (none : Option Int) exC4 := by decide

/-- C4 amended: `create_continuity` is idempotent on every table whose
first application yields a discontinuity-free result (in particular on
any table with no discontinuity, by the identity shortcut). -/
theorem C4_idempotent_of_no_disc (T : List (Row (Option Int)))
    (h : hasDiscontinuity (create_continuity (none : Option Int) T) = false) :
    create_continuity (none : Option Int) (create_continuity none T) =
      create_continuity (none : Option Int) T :=
  create_continuity_of_no_disc none _ h

/-- C4 witness: a flagged input whose continuity result is
discontinuity-free, so the amended idempotence applies. -/
theorem C4_witness :
    hasDiscontinuity (create_continuity (none : Option Int) exC4w) = false ∧
    create_continuity (none : Option Int) (create_continuity none exC4w) =
      create_continuity (none : Option Int) exC4w :=
  ⟨by decide, C4_idempotent_of_no_disc exC4w (by decide)⟩

/-- C5 counterexample: the only discontinuity flag of the example comes
from a DiscreteKey change (a true track start), yet `create_continuity`
synthesizes the cross-track filler `(2, [5,10), null)` and appends it
after the original rows rather than inserting it before row 1. -/
theorem C5_counterexample :
    compute_discontinuity exC5 = [false, true] ∧
    (exC5.get? 0).map (fun r => r.k) = some 1 ∧
    (exC5.get? 1).map (fun r => r.k) = some 2 ∧
    create_continuity (none : Option Int) exC5 =
      [⟨1, 0, 5, some 10⟩, ⟨2, 10, 20, some 20⟩, ⟨2, 5, 10, none⟩] := by decide

/-- C5 amended: on any table with a discontinuity, the output is the
valid original rows followed by one filler per flagged row — including
rows flagged only by a DiscreteKey change — with `start = end[i-1]`,
`end = start[i]`, row `i`'s key and null payload, kept only when
`end[i-1] < start[i]`, appended after the originals in flag order. -/
theorem C5_fillers_characterization (T : List (Row (Option Int)))
    (h : hasDiscontinuity T = true) :
    create_continuity (none : Option Int) T =
      T.filter (fun r => decide (r.s < r.e)) ++
        (T.zip T.tail).filterMap (fun pc =>
          if (pc.2.k ≠ pc.1.k ∨ pc.2.s ≠ pc.1.e) ∧ pc.1.e < pc.2.s
          then some ⟨pc.2.k, pc.1.e, pc.2.s, none⟩ else none) := by
  cases T with
  | nil => simp [hasDiscontinuity, compute_discontinuity] at h
  | cons x xs =>
    simp only [create_continuity, create_continuity_full, h, if_true,
      List.filter_append, continuityFillers]
    rw [fillersAux_filter_eq_zip]
    rfl

/-- C5 witness: the characterization applied to the two-track example. -/
theorem C5_witness :
    hasDiscontinuity exC5 = true ∧
    create_continuity (none : Option Int) exC5 =
      exC5.filter (fun r => decide (r.s < r.e)) ++
        (exC5.zip exC5.tail).filterMap (fun pc =>
          if (pc.2.k ≠ pc.1.k ∨ pc.2.s ≠ pc.1.e) ∧ pc.1.e < pc.2.s
          then some ⟨pc.2.k, pc.1.e, pc.2.s, none⟩ else none) :=
  ⟨by decide, C5_fillers_characterization exC5 (by decide)⟩

/-- C7 counterexample: a merge in which only the right side is
event-indexed still raises the not-implemented `AssertionError`
(base.py 274-276), and a table lacking only one interval column is
already classified event-indexed — both directions of the claim fail. -/
theorem C7_counterexample :
    merge_outcome ["id", "t1", "t2", "data1"] ["id", "pk"] "t1" "t2" "id" =
      MergeOutcome.unsupported ∧
    is_event ["id", "t1", "t2", "data1"] "t1" "t2" = false ∧
    is_event ["id", "pk"] "t1" "t2" = true ∧
    is_event ["id", "t1"] "t1" "t2" = true := by decide

/-- C6 counterexample: three failures of the claim as stated.  First, on
an admissible sorted valid track with null payloads, two adjacent
contiguous rows with identical (null) payload survive untouched (NaN is
never `np.equal` to NaN).  Second, on a table with a reversed segment,
the collapse changes the payload value at the covered point `3` of
track 1.  Third, on a valid but non-admissible unsorted table, the
output keeps two adjacent contiguous rows with identical non-null
payloads. -/
theorem C6_counterexample :
    (aggregate_constant np_equal exC6null = exC6null ∧
      hasAdjacentIdentical (aggregate_constant np_equal exC6null) = true) ∧
    (coversPt exC6rev 1 3 (some 1) ∧
      ¬ coversPt (aggregate_constant np_equal exC6rev) 1 3 (some 1)) ∧
    (validRows exC6over ∧ aggregate_constant np_equal exC6over = exC6over ∧
      hasAdjacentIdentical (aggregate_constant np_equal exC6over) = true) := by
  decide

/-- C6 amended: for every valid (`start < end`) admissible input table,
`aggregate_constant` (i) preserves the set of payload values covering
every point of every track, (ii) never produces two adjacent output rows
of the same track with contiguous bounds and identical non-null payload
(`np.equal` semantics, the code's own notion of identical), and (iii)
passes runs of length 1 — rows with no collapsible neighbour — through
untouched. -/
theorem C6_aggregate_constant_collapse (df : List (Row (Option Int)))
    (hv : validRows df) (ha : nonOverlapping df) :
    (∀ kk x pv, coversPt (aggregate_constant np_equal df) kk x pv ↔ coversPt df kk x pv) ∧
    List.Chain' (fun a b => linkRow np_equal a b = false) (aggregate_constant np_equal df) ∧
    (∀ r ∈ df, (∀ w ∈ df, linkRow np_equal w r = false ∧ linkRow np_equal r w = false) →
      r ∈ aggregate_constant np_equal df) := by
  have hperm : (sortBy rowLt df).Perm df := sortBy_perm rowLt df
  have hsl : (sortBy rowLt df).Pairwise (fun a b => rowLt b a = false) :=
    @sortBy_pairwise (Row (Option Int)) rowLt (fun _ _ h => rowLt_asymm h)
      (fun _ _ _ h1 h2 => rowLt_le_trans h1 h2) df
  have hvl : validRows (sortBy rowLt df) := fun r hr => hv r (hperm.mem_iff.mp hr)
  have hal : nonOverlapping (sortBy rowLt df) :=
    (hperm.pairwise_iff (fun h hk => (h hk.symm).symm)).mpr ha
  by_cases hid : (identicalFlags np_equal (sortBy rowLt df)).any id = true
  · have hout : aggregate_constant np_equal df =
        (chunks (linkRow np_equal) (sortBy rowLt df)).map collapseChunk := by
      have h1 : aggregate_constant np_equal df =
          dedupBy id (aggNewRows (sortBy rowLt df)
            (identicalFlags np_equal (sortBy rowLt df))) := by
        simp only [aggregate_constant, hid, if_true]
      rw [h1, aggNewRows_blocks]
      exact dedupBy_blocks collapseChunk (fun c => c.2.length) _
        (collapse_pairwise_ne _ hvl hal)
    have hflat : (chunks (linkRow np_equal) (sortBy rowLt df)).flatMap chunkJoin =
        sortBy rowLt df := chunks_flatMap _ _
    have hchain := chunks_chain (linkRow np_equal) (sortBy rowLt df)
    have hmeml : ∀ c ∈ chunks (linkRow np_equal) (sortBy rowLt df),
        ∀ r ∈ c.1 :: c.2, r ∈ sortBy rowLt df := by
      intro c hc r hr
      rw [← hflat]
      exact List.mem_flatMap.mpr ⟨c, hc, hr⟩
    refine ⟨?_, ?_, ?_⟩
    · intro kk x pv
      rw [hout]
      constructor
      · rintro ⟨o, ho, hok, hos, hox, hop⟩
        rcases List.mem_map.mp ho with ⟨c, hc, rfl⟩
        have hch := hchain c hc
        have hvc : ∀ r ∈ c.1 :: c.2, r.s < r.e := fun r hr => hvl r (hmeml c hc r hr)
        obtain ⟨r, hr, hrs, hre⟩ := chain_cover hvc hch x
          (by simpa [collapseChunk] using hos) (by simpa [collapseChunk] using hox)
        obtain ⟨hrk, hrp⟩ := chain_members_kp hch r hr
        refine ⟨r, hperm.mem_iff.mp (hmeml c hc r hr), ?_, hrs, hre, ?_⟩
        · rw [hrk]
          simpa [collapseChunk] using hok
        · rw [hrp]
          simpa [collapseChunk] using hop
      · rintro ⟨r, hr, hrk, hrs, hrx, hrp⟩
        have hrl : r ∈ sortBy rowLt df := hperm.mem_iff.mpr hr
        rw [← hflat] at hrl
        rcases List.mem_flatMap.mp hrl with ⟨c, hc, hrc⟩
        have hrc' : r ∈ c.1 :: c.2 := hrc
        have hch := hchain c hc
        have hvc : ∀ w ∈ c.1 :: c.2, w.s < w.e := fun w hw => hvl w (hmeml c hc w hw)
        obtain ⟨hb1, hb2⟩ := chain_bounds hvc hch r hrc'
        obtain ⟨hk1, hp1⟩ := chain_members_kp hch r hrc'
        refine ⟨collapseChunk c, List.mem_map_of_mem _ hc, ?_, ?_, ?_, ?_⟩
        · show (collapseChunk c).k = kk
          simp only [collapseChunk]
          rw [← hk1]
          exact hrk
        · show (collapseChunk c).s ≤ x
          simp only [collapseChunk]
          omega
        · show x < (collapseChunk c).e
          simp only [collapseChunk]
          omega
        · show (collapseChunk c).p = pv
          simp only [collapseChunk]
          rw [← hp1]
          exact hrp
    · rw [hout]
      refine chain'_map_mem collapseChunk _ ?_ (chunks_boundary _ _)
      intro c hc d hd hR
      by_contra hcontra
      have htrue : linkRow np_equal (collapseChunk c) (collapseChunk d) = true := by
        revert hcontra
        cases linkRow np_equal (collapseChunk c) (collapseChunk d) <;> simp
      obtain ⟨hk2, he2, hp2⟩ := linkRow_dest htrue
      have hlmem : c.2.getLastD c.1 ∈ c.1 :: c.2 := List.getLastD_mem_cons c.2 c.1
      obtain ⟨hlk, hlp⟩ := chain_members_kp (hchain c hc) _ hlmem
      have hlink : linkRow np_equal (c.2.getLastD c.1) d.1 = true := by
        simp only [linkRow, Bool.and_eq_true, decide_eq_true_eq]
        simp only [collapseChunk] at hk2 he2 hp2
        exact ⟨⟨by rw [hlk]; exact hk2, he2⟩, by rw [hlp]; exact hp2⟩
      rw [hlink] at hR
      cases hR
    · intro r hr hiso
      have hrl : r ∈ sortBy rowLt df := hperm.mem_iff.mpr hr
      rw [← hflat] at hrl
      rcases List.mem_flatMap.mp hrl with ⟨c, hc, hrc⟩
      have hrc' : r ∈ c.1 :: c.2 := hrc
      have hch := hchain c hc
      cases hc2 : c.2 with
      | nil =>
        have hr1 : r = c.1 := by
          rw [hc2] at hrc'
          exact List.mem_singleton.mp hrc'
        rw [hout]
        refine List.mem_map.mpr ⟨c, hc, ?_⟩
        have hcol : collapseChunk c = c.1 := by
          simp [collapseChunk, hc2]
        rw [hcol, hr1]
      | cons y ys =>
        exfalso
        have hne : c.2 ≠ [] := by rw [hc2]; simp
        obtain ⟨w, hw, hlw⟩ := chain_has_neighbour hch hrc' hne
        have hwdf : w ∈ df := hperm.mem_iff.mp (hmeml c hc w hw)
        rcases hlw with h1 | h1
        · rw [(hiso w hwdf).1] at h1
          cases h1
        · rw [(hiso w hwdf).2] at h1
          cases h1
  · have hout : aggregate_constant np_equal df = df := by
      simp only [aggregate_constant]
      rw [if_neg]
      simpa using hid
    have hnolink : ∀ x ∈ df, ∀ y ∈ df, linkRow np_equal x y = false := by
      intro x hx y hy
      by_contra hcontra
      have htrue : linkRow np_equal x y = true := by
        revert hcontra
        cases linkRow np_equal x y <;> simp
      exact hid (link_members_any_flag _ hsl hvl hal
        (hperm.mem_iff.mpr hx) (hperm.mem_iff.mpr hy) htrue)
    refine ⟨?_, ?_, ?_⟩
    · intro kk x pv
      rw [hout]
    · rw [hout]
      exact (List.pairwise_of_forall_mem_list hnolink).chain'
    · intro r hr _
      rw [hout]
      exact hr

/-- C6 witness: the amended theorem applied to an admissible valid table
whose first two rows collapse into one. -/
theorem C6_witness :
    validRows exC6w ∧ nonOverlapping exC6w ∧
    ((∀ kk x pv,
        coversPt (aggregate_constant np_equal exC6w) kk x pv ↔ coversPt exC6w kk x pv) ∧
      List.Chain' (fun a b => linkRow np_equal a b = false)
        (aggregate_constant np_equal exC6w) ∧
      (∀ r ∈ exC6w,
        (∀ w ∈ exC6w, linkRow np_equal w r = false ∧ linkRow np_equal r w = false) →
          r ∈ aggregate_constant np_equal exC6w)) :=
  ⟨by decide, by decide, C6_aggregate_constant_collapse exC6w (by decide) (by decide)⟩

/-- C7 amended: a table is event-indexed when it lacks at least one of
the two interval columns; for frames that both carry the discrete key
column (when one side misses it the real code fails earlier, inside
`__fix_discrete_index` or a `data.loc[:, id_]` selection, before the
event dispatch), given that argument validation passes, merge raises
the unsupported-configuration `AssertionError` iff both inputs are
event-indexed, or exactly one is and the event side has a `"pk"`
column (without `"pk"` the same configuration fails with a `KeyError`
from the column selection instead). -/
theorem C7_unsupported_characterization (colsL colsR : List String) (c1 c2 kc : String)
    (hkl : colsL.contains kc = true) (hkr : colsR.contains kc = true) :
    merge_outcome colsL colsR c1 c2 kc = MergeOutcome.unsupported ↔
      check_args_ok colsL colsR c1 c2 kc = true ∧
      ((is_event colsL c1 c2 = true ∧ is_event colsR c1 c2 = true) ∨
       (is_event colsL c1 c2 = true ∧ is_event colsR c1 c2 = false ∧
         colsL.contains "pk" = true) ∨
       (is_event colsL c1 c2 = false ∧ is_event colsR c1 c2 = true ∧
         colsR.contains "pk" = true)) := by
  clear hkl hkr
  unfold merge_outcome merge_index_outcome merge_index_event_branch
  cases hchk : check_args_ok colsL colsR c1 c2 kc <;>
    cases ha : is_event colsL c1 c2 <;>
    cases hb : is_event colsR c1 c2 <;>
    cases hpl : colsL.contains "pk" <;>
    cases hpr : colsR.contains "pk" <;>
    simp [hchk, ha, hb, hpl, hpr]

/-- C7 amended theorem instantiated at a concrete one-sided event
configuration: both frames carry the key column `"id"`, only the right
frame is event-indexed and it has a `"pk"` column, and the merge indeed
reports the unsupported configuration. -/
theorem C7_witness :
    (["id", "t1", "t2", "data1"] : List String).contains "id" = true ∧
    (["id", "pk"] : List String).contains "id" = true ∧
    merge_outcome ["id", "t1", "t2", "data1"] ["id", "pk"] "t1" "t2" "id" =
      MergeOutcome.unsupported :=
  ⟨by decide, by decide,
    (C7_unsupported_characterization ["id", "t1", "t2", "data1"] ["id", "pk"]
        "t1" "t2" "id" (by decide) (by decide)).mpr (by decide)⟩

end Crep
